/-
Verification of the cw2 experiment-configuration unfolder
(`cw2/cw_config/conf_unfolder.py`).

The development shallowly embeds the unfolder: a Python `dict` configuration
becomes a `Config` structure whose optional fields model key presence, nested
parameter trees become `PVal`, sweep blocks (`grid` / `list` / `ablative`)
become `SVal` trees whose leaves are candidate-value lists, and fallible
dictionary accesses become `Except String` results.  The helper modules
`util`, `conf_path`, `cw_conf_keys` and `cw_logging` are not part of the
sources; their contracts are modelled from the specification document and the
corresponding definitions say so in their doc comments.  The global warning
logger is modelled as an explicitly returned list of warning strings.
-/
import Mathlib

set_option autoImplicit false

/-- Value stored inside a `params` tree: either a scalar (modelled as a
string) or a nested string-keyed mapping, modelling a Python nested dict. -/
inductive PVal where
  | atom (s : String) : PVal
  | dict (entries : List (String × PVal)) : PVal

/-- Node of a sweep block (`grid` / `list` / `ablative`): leaves hold the list
of candidate values for one key-path, inner nodes are nested mappings. -/
inductive SVal where
  | leaf (vals : List String) : SVal
  | node (entries : List (String × SVal)) : SVal

/-- Python dict assignment `d[k] = v` on an insertion-ordered association
list: replaces the value in place when the key exists, appends otherwise. -/
def setKey : List (String × PVal) → String → PVal → List (String × PVal)
  | [], k, v => [(k, v)]
  | p :: rest, k, v => if p.1 = k then (k, v) :: rest else p :: setKey rest k v

/-- Python dict read `d.get(k)` on an association list. -/
def lookupKey : List (String × PVal) → String → Option PVal
  | [], _ => none
  | p :: rest, k => if p.1 = k then some p.2 else lookupKey rest k

/-- The nested dictionary stored under `k`, or a fresh empty one when the key
is absent or holds a non-dict value (which gets overwritten). -/
def subdict (d : List (String × PVal)) (k : String) : List (String × PVal) :=
  match lookupKey d k with
  | some (PVal.dict m) => m
  | _ => []

/-- Modelled from the spec: `util.insert_deep_dictionary` is not among the
sources.  Contract (spec section 6): `insert(nested_map, key_tuple, value)`,
creates intermediate levels as needed, overwrites an existing leaf. -/
def insert_deep_dictionary : List (String × PVal) → List String → PVal → List (String × PVal)
  | d, [], _ => d
  | d, [k], v => setKey d k v
  | d, k :: ks, v => setKey d k (PVal.dict (insert_deep_dictionary (subdict d k) ks v))

/-- Read the value bound at a key-path of a nested parameter tree. -/
def lookupPath : List (String × PVal) → List String → Option PVal
  | _, [] => none
  | d, [k] => lookupKey d k
  | d, k :: ks =>
    match lookupKey d k with
    | some (PVal.dict m) => lookupPath m ks
    | _ => none

mutual
/-- Modelled from the spec: the key-path flattener of `util` is not among the
sources.  Contract (spec sections 4.1 and 6): turn a nested sweep mapping into
an ordered mapping from key-path tuples to candidate-value lists, depth-first
in stable insertion order.  This function flattens one sweep value. -/
def flattenS : SVal → List (List String × List String)
  | SVal.leaf vals => [([], vals)]
  | SVal.node entries => flattenKV entries

/-- Modelled from the spec: flattens the entry list of a sweep node, in
insertion order, prefixing each inner key-path with the entry's key. -/
def flattenKV : List (String × SVal) → List (List String × List String)
  | [] => []
  | (k, v) :: rest => (flattenS v).map (fun p => (k :: p.1, p.2)) ++ flattenKV rest
end

/-- Modelled from the spec: `util.flatten_dict_to_tuple_keys` applied to a
whole sweep block (a nested mapping). -/
def flatten_dict_to_tuple_keys (m : List (String × SVal)) : List (List String × List String) :=
  flattenKV m

mutual
/-- Well-formedness of one sweep value as the image of a Python dict:
keys are pairwise distinct at every nesting level. -/
def svalWFb : SVal → Bool
  | SVal.leaf _ => true
  | SVal.node entries => sweepWFb entries

/-- Well-formedness of a sweep entry list: no duplicate keys, recursively. -/
def sweepWFb : List (String × SVal) → Bool
  | [] => true
  | (k, v) :: rest => !(rest.any (fun p => p.1 = k)) && svalWFb v && sweepWFb rest
end

/-- Two key-paths diverge when they differ at some position common to both,
i.e. neither is a prefix of the other. -/
def diverge : List String → List String → Bool
  | [], _ => false
  | _ :: _, [] => false
  | a :: as, b :: bs => a ≠ b || diverge as bs

/-- Boolean test that `pat` starts the character list `s`. -/
def leadsWith : List Char → List Char → Bool
  | [], _ => true
  | _ :: _, [] => false
  | p :: ps, c :: cs => p = c && leadsWith ps cs

/-- Python's substring test `pat in s`. -/
def strContainsSub (s pat : String) : Bool :=
  s.data.tails.any (fun t => leadsWith pat.data t)

/-- Modelled from the spec: `util.convert_param_names` is not among the
sources.  Contract (spec section 4.3): derive one short token per
(name, value) pair by string conversion and join the tokens into a single
suffix; the worked example in spec section 8 shows the token `lr_0.1` for
name `lr` and value `0.1`. -/
def convert_param_names (param_names : List String) (values : List String) : String :=
  String.intercalate "_" ((List.zip param_names values).map (fun p => p.1 ++ "_" ++ p.2))

/-- Embeds Python's `itertools.product(*lists)`: full cross-product in
standard iteration order, the first list varying slowest.  `product()` with
no arguments yields exactly one empty tuple. -/
def productLists : List (List String) → List (List String)
  | [] => [[]]
  | l :: rest => l.flatMap (fun x => (productLists rest).map (fun t => x :: t))

/-- Embeds Python's `zip(*lists)`: positional pairing truncated to the
shortest list.  `zip()` with no arguments yields no tuples. -/
def zipLists : List (List String) → List (List String)
  | [] => []
  | [l] => l.map (fun x => [x])
  | l :: rest => List.zipWith (fun x t => x :: t) l (zipLists rest)

/-- The minimum of a nonempty list of lengths (`0` for the empty list),
mirroring the truncation length of `zipLists`. -/
def minLen : List Nat → Nat
  | [] => 0
  | [n] => n
  | n :: rest => min n (minLen rest)

/-- The two iteration functions the driver passes to the combination engine
(source lines 56-70): `itertools.product` for `grid`, `zip` for `list`. -/
inductive IterFunc where
  | product : IterFunc
  | zip : IterFunc
deriving DecidableEq, Repr

/-- Apply the selected iteration function to the candidate-value lists. -/
def applyIter : IterFunc → List (List String) → List (List String)
  | IterFunc.product => productLists
  | IterFunc.zip => zipLists

/-- One experiment configuration dictionary.  Option-valued fields model key
presence in the Python dict; the key names (`name`, `path`, `repetitions`,
`params`, `grid`, `list`, `ablative` and the bookkeeping keys `_basic_path`,
`_experiment_name`, `_nested_dir`, `_rep_idx`, `_rep_log_path`, `log_path`)
are modelled from the spec's data model since the `cw_conf_keys` module is
not among the sources. -/
structure Config where
  name : Option String := none
  path : Option String := none
  repetitions : Option Nat := none
  params : Option (List (String × PVal)) := none
  grid : Option (List (String × SVal)) := none
  list : Option (List (String × SVal)) := none
  ablative : Option (List (String × SVal)) := none
  basic_path : Option String := none
  experiment_name : Option String := none
  nested_dir : Option String := none
  rep_idx : Option Nat := none
  rep_log_path : Option String := none
  log_path : Option String := none

/-- The two directive keys the combination engine may be asked to expand. -/
inductive DKey where
  | grid : DKey
  | list : DKey
deriving DecidableEq, Repr

/-- String name of a directive key, for error messages. -/
def dkeyName : DKey → String
  | DKey.grid => "grid"
  | DKey.list => "list"

/-- Python read `config[key]` for a directive key. -/
def getDirective (c : Config) : DKey → Option (List (String × SVal))
  | DKey.grid => c.grid
  | DKey.list => c.list

/-- Python delete `del config[key]` for a directive key
(source line 111). -/
def delDirective (c : Config) : DKey → Config
  | DKey.grid => { c with grid := none }
  | DKey.list => { c with list := none }

/-- Embeds `extend_config_name` (source lines 156-177): append a shorthand
derived from the parameter names and values to `_experiment_name`, using
separator `__` unless the current name already contains `__`, in which case
`_` is used; also set `_nested_dir` to the original `name`. -/
def extend_config_name (config : Config) (param_names : List String) (values : List String) :
    Except String Config :=
  let converted_name := convert_param_names param_names values
  let sep : String :=
    match config.experiment_name with
    | some en => if strContainsSub en "__" then "_" else "__"
    | none => "__"
  match config.experiment_name, config.name with
  | some en, some nm =>
    Except.ok { config with
      experiment_name := some (en ++ sep ++ converted_name),
      nested_dir := some nm }
  | none, _ => Except.error "KeyError: _experiment_name"
  | some _, none => Except.error "KeyError: name"

/-- Embeds the per-combination loop of `params_combine` (source lines
107-122): for each tuple of concrete values, copy the template, delete the
directive key, ensure a `params` mapping, insert each value at its key-path,
and extend the experiment name. -/
def combine_loop (config : Config) (k : DKey) (tuple_dict : List (List String × List String))
    (param_names : List String) : List (List String) → Except String (List Config)
  | [] => Except.ok []
  | values :: more =>
    let c1 := delDirective config k
    let c2 := match c1.params with
      | some _ => c1
      | none => { c1 with params := some [] }
    let ps := (List.zip (tuple_dict.map (fun t => t.1)) values).foldl
      (fun d tv => insert_deep_dictionary d tv.1 (PVal.atom tv.2)) (c2.params.getD [])
    let c3 := { c2 with params := some ps }
    match extend_config_name c3 param_names values with
    | Except.error e => Except.error e
    | Except.ok cfg =>
      match combine_loop config k tuple_dict param_names more with
      | Except.error e => Except.error e
      | Except.ok res => Except.ok (cfg :: res)

/-- Embeds `params_combine` (source lines 81-123).  Warnings that the source
sends to the global `cw_logging` logger (not among the sources) are modelled,
following spec section 9, as an explicitly returned list of messages. -/
def params_combine (config : Config) (key : Option DKey) (iter_func : Option IterFunc) :
    Except String (List Config × List String) :=
  match iter_func with
  | none => Except.ok ([config], [])
  | some itf =>
    match key with
    | none => Except.error "KeyError: no combination key"
    | some k =>
      match getDirective config k with
      | none => Except.error ("KeyError: " ++ dkeyName k)
      | some sweep =>
        let tuple_dict := flatten_dict_to_tuple_keys sweep
        let param_names := tuple_dict.map (fun t => String.intercalate "." t.1)
        let param_lengths := tuple_dict.map (fun t => t.2.length)
        let warnStep : Except String (List String) :=
          if k = DKey.list ∧ param_lengths.dedup.length ≠ 1 then
            match config.name with
            | some nm =>
              Except.ok ["list params of experiment " ++ nm ++ " are not of equal length."]
            | none => Except.error "KeyError: name"
          else Except.ok []
        match warnStep with
        | Except.error e => Except.error e
        | Except.ok warns =>
          match combine_loop config k tuple_dict param_names
              (applyIter itf (tuple_dict.map (fun t => t.2))) with
          | Except.error e => Except.error e
          | Except.ok recs => Except.ok (recs, warns)

/-- Embeds the innermost loop of `ablative_expand` (source lines 141-152):
for each candidate value of one ablative key-path, copy the record, insert
only that value into `params`, and extend the name with that single pair. -/
def abl_val_loop (config : Config) (key : List String) (name_i : String) :
    List String → Except String (List Config)
  | [] => Except.ok []
  | val :: more =>
    let c1 := match config.params with
      | some _ => config
      | none => { config with params := some [] }
    let ps := insert_deep_dictionary (c1.params.getD []) key (PVal.atom val)
    let c2 := { c1 with params := some ps }
    match extend_config_name c2 [name_i] [val] with
    | Except.error e => Except.error e
    | Except.ok cfg =>
      match abl_val_loop config key name_i more with
      | Except.error e => Except.error e
      | Except.ok res => Except.ok (cfg :: res)

/-- Embeds the per-key-path loop of `ablative_expand` (source lines 140-152),
tracking the index used to pick the dotted name of the current key-path. -/
def abl_key_loop (config : Config) (param_names : List String) :
    Nat → List (List String × List String) → Except String (List Config)
  | _, [] => Except.ok []
  | i, (key, vals) :: more =>
    match abl_val_loop config key (param_names.getD i "") vals with
    | Except.error e => Except.error e
    | Except.ok first =>
      match abl_key_loop config param_names (i + 1) more with
      | Except.error e => Except.error e
      | Except.ok rest => Except.ok (first ++ rest)

/-- Embeds `ablative_expand` (source lines 126-153): every record is expanded
into one additional variant per (ablative key-path, candidate value) pair. -/
def ablative_expand : List Config → Except String (List Config)
  | [] => Except.ok []
  | config :: more =>
    match config.ablative with
    | none => Except.error "KeyError: ablative"
    | some abl =>
      let tuple_dict := flatten_dict_to_tuple_keys abl
      let param_names := tuple_dict.map (fun t => String.intercalate "." t.1)
      match abl_key_loop config param_names 0 tuple_dict with
      | Except.error e => Except.error e
      | Except.ok this =>
        match ablative_expand more with
        | Except.error e => Except.error e
        | Except.ok rest => Except.ok (this ++ rest)

/-- Embeds the default-setting block of `expand_experiments` (source lines
44-53): set `_basic_path` from `path`, `_experiment_name` from `name` and an
empty `_nested_dir` when absent; missing `path` or `name` raise `KeyError`. -/
def set_defaults (config : Config) : Except String Config :=
  match (if config.basic_path.isSome then Except.ok config
         else match config.path with
           | some p => Except.ok { config with basic_path := some p }
           | none => Except.error "KeyError: path") with
  | Except.error e => Except.error e
  | Except.ok c1 =>
    match (if c1.experiment_name.isSome then Except.ok c1
           else match c1.name with
             | some n => Except.ok { c1 with experiment_name := some n }
             | none => Except.error "KeyError: name") with
    | Except.error e => Except.error e
    | Except.ok c2 =>
      Except.ok (if c2.nested_dir.isSome then c2 else { c2 with nested_dir := some "" })

/-- Modelled from the spec: `conf_path.normalize_expanded_paths` is not among
the sources.  Contract (spec sections 1 and 6): a pure, order-preserving map
over the records that reconciles `path`, `_base_path` and `_nested_dir` into
the final on-disk path and log path, leaving all other fields untouched. -/
def normalize_expanded_paths (l : List Config) : List Config :=
  l.map (fun c =>
    let base := (c.basic_path).getD ""
    let p :=
      (if (c.nested_dir).getD "" = "" then base else base ++ "/" ++ (c.nested_dir).getD "")
        ++ "/" ++ (c.experiment_name).getD ""
    { c with path := some p, log_path := some (p ++ "/log") })

/-- Work-list weight of one configuration: a template carrying both `grid`
and `list` is processed once itself and re-enqueues one list-expanded child
per `zip` tuple, each processed once more; every other template is processed
exactly once. -/
def configWeight (c : Config) : Nat :=
  if c.grid.isSome && c.list.isSome then
    2 + (zipLists ((flatten_dict_to_tuple_keys (c.list.getD [])).map (fun t => t.2))).length
  else 1

/-- Total work-list weight: an upper bound on the number of configurations
the driver's growing iteration list ever contains. -/
def worklistMeasure (l : List Config) : Nat :=
  (l.map configWeight).sum

/-- Embeds the main loop of `expand_experiments` (source lines 40-77) as an
explicit work list: the source iterates over a list it appends to when a
template carries both `grid` and `list` (re-enqueuing the list-expanded
children with `grid` still attached), so appended children are processed
after all remaining templates.  The loop is step-indexed by the number of
configurations left to process; `expand_experiments` supplies the
`worklistMeasure` bound, which the executed recursion never exhausts. -/
def expand_loop : Nat → List Config → Except String (List Config × List String)
  | 0, _ => Except.error "work list budget exhausted"
  | _ + 1, [] => Except.ok ([], [])
  | fuel + 1, config :: rest =>
    match set_defaults config with
    | Except.error e => Except.error e
    | Except.ok c =>
      if c.grid.isSome && c.list.isSome then
        match params_combine c (some DKey.list) (some IterFunc.zip) with
        | Except.error e => Except.error e
        | Except.ok kw =>
          match expand_loop fuel (rest ++ kw.1) with
          | Except.error e => Except.error e
          | Except.ok rw => Except.ok (rw.1, kw.2 ++ rw.2)
      else
        let ki : Option DKey × Option IterFunc :=
          if c.grid.isSome then (some DKey.grid, some IterFunc.product) else (none, none)
        let ki := if c.list.isSome then (some DKey.list, some IterFunc.zip) else ki
        match params_combine c ki.1 ki.2 with
        | Except.error e => Except.error e
        | Except.ok ew =>
          match (if c.ablative.isSome then
                   match ablative_expand ew.1 with
                   | Except.error e => Except.error e
                   | Except.ok more => Except.ok (ew.1 ++ more)
                 else Except.ok ew.1) with
          | Except.error e => Except.error e
          | Except.ok expansion =>
            match expand_loop fuel rest with
            | Except.error e => Except.error e
            | Except.ok rw => Except.ok (expansion ++ rw.1, ew.2 ++ rw.2)

/-- Embeds `expand_experiments` (source lines 27-78): deep-copy the input
(identity under value semantics), run the work-list loop, and normalize the
paths of the accumulated records. -/
def expand_experiments (exp_configs : List Config) : Except String (List Config × List String) :=
  match expand_loop (worklistMeasure exp_configs + 1) exp_configs with
  | Except.error e => Except.error e
  | Except.ok rw => Except.ok (normalize_expanded_paths rw.1, rw.2)

/-- Python's `'{:02d}'.format(r)`: decimal digits, zero-padded to width 2. -/
def format02 (n : Nat) : String :=
  if n < 10 then "0" ++ toString n else toString n

/-- Python's `os.path.join(a, b)` for a non-absolute second component. -/
def os_path_join (a b : String) : String :=
  if a = "" then b else if a.endsWith "/" then a ++ b else a ++ "/" ++ b

/-- Embeds the inner loop of `unroll_exp_reps` (source lines 196-201): one
deep copy of the record per repetition index, carrying the index and the
repetition log path `<log_path>/rep_{r:02d}`. -/
def rep_records (config : Config) : List Nat → Except String (List Config)
  | [] => Except.ok []
  | r :: more =>
    match config.log_path with
    | none => Except.error "KeyError: log_path"
    | some lp =>
      let c := { config with
        rep_idx := some r,
        rep_log_path := some (os_path_join lp ("rep_" ++ format02 r)) }
      match rep_records config more with
      | Except.error e => Except.error e
      | Except.ok res => Except.ok (c :: res)

/-- Embeds `unroll_exp_reps` (source lines 180-202): records already carrying
a repetition index pass through unchanged; every other record is unrolled
into `repetitions` copies with indices `0..R-1`. -/
def unroll_exp_reps : List Config → Except String (List Config)
  | [] => Except.ok []
  | config :: rest =>
    if config.rep_idx.isSome then
      match unroll_exp_reps rest with
      | Except.error e => Except.error e
      | Except.ok res => Except.ok (config :: res)
    else
      match config.repetitions with
      | none => Except.error "KeyError: repetitions"
      | some n =>
        match rep_records config (List.range n) with
        | Except.error e => Except.error e
        | Except.ok reps =>
          match unroll_exp_reps rest with
          | Except.error e => Except.error e
          | Except.ok res => Except.ok (reps ++ res)

/-- Embeds `unfold_exps` (source lines 12-24): parameter expansion followed
by repetition unrolling. -/
def unfold_exps (exp_configs : List Config) : Except String (List Config × List String) :=
  match expand_experiments exp_configs with
  | Except.error e => Except.error e
  | Except.ok pw =>
    match unroll_exp_reps pw.1 with
    | Except.error e => Except.error e
    | Except.ok unrolled => Except.ok (unrolled, pw.2)

/-
Heap-level embedding.

Python passes the configuration dictionaries by reference and the source
relies on `deepcopy` before every mutation.  To state the frame property
(the caller's template dictionaries are never modified) the pipeline is
re-run over an explicit heap: a heap is a list of configuration dictionaries
(one cell per top-level Python dict — `deepcopy` is deep, so distinct cells
never share substructure and cell granularity is faithful), a reference is an
index into it, allocation appends, and `deepcopy` allocates a fresh cell with
a copied value.  Each heap-level function performs exactly the reads, writes
and allocations of the corresponding source lines, computing the transformed
values with the value-level functions above.
-/

/-- The empty configuration dictionary, used as the read default for the
(never exercised) dangling-reference case. -/
def emptyConfig : Config := {}

/-- Allocate one cell per value, returning the new heap and the fresh
references in order. -/
def allocValues (h : List Config) (vs : List Config) : List Config × List Nat :=
  match vs with
  | [] => (h, [])
  | v :: more =>
    let av := allocValues (h ++ [v]) more
    (av.1, h.length :: av.2)

/-- Embeds `deepcopy(_experiment_configs)` (source line 38): allocate a fresh
copy of every referenced cell. -/
def deepcopyRefs (h : List Config) (rs : List Nat) : List Config × List Nat :=
  allocValues h (rs.map (fun r => h.getD r emptyConfig))

/-- Heap-level default-setting block (source lines 44-53): reads the cell,
updates the bookkeeping fields, and writes the cell back in place — this is
the one mutation the driver performs on an existing cell. -/
def set_defaults_st (h : List Config) (r : Nat) : List Config × Except String Unit :=
  match set_defaults (h.getD r emptyConfig) with
  | Except.error e => (h, Except.error e)
  | Except.ok c => (h.set r c, Except.ok ())

/-- Heap-level `params_combine` (source lines 81-123): reads the template
cell, never writes it, and allocates one fresh cell per combination (the
source's per-combination `deepcopy` at line 108). -/
def params_combine_st (h : List Config) (r : Nat) (key : Option DKey)
    (iter_func : Option IterFunc) : List Config × Except String (List Nat × List String) :=
  match params_combine (h.getD r emptyConfig) key iter_func with
  | Except.error e => (h, Except.error e)
  | Except.ok rw =>
    let av := allocValues h rw.1
    (av.1, Except.ok (av.2, rw.2))

/-- Heap-level `ablative_expand` (source lines 126-153): reads the base
cells, never writes them, and allocates one fresh cell per variant (the
source's per-variant `deepcopy` at line 142). -/
def ablative_expand_st (h : List Config) (rs : List Nat) :
    List Config × Except String (List Nat) :=
  match ablative_expand (rs.map (fun r => h.getD r emptyConfig)) with
  | Except.error e => (h, Except.error e)
  | Except.ok recs =>
    let av := allocValues h recs
    (av.1, Except.ok av.2)

/-- Heap-level path normalization: the external collaborator is pure
(spec section 6), so it allocates fresh result cells and writes nothing. -/
def normalize_st (h : List Config) (rs : List Nat) : List Config × List Nat :=
  allocValues h (normalize_expanded_paths (rs.map (fun r => h.getD r emptyConfig)))

/-- Heap-level single-directive combination step (source lines 64-69): picks
the directive key and iteration function from the cell and runs the
combination engine on it. -/
def step_combine_st (h : List Config) (r : Nat) :
    List Config × Except String (List Nat × List String) :=
  let c := h.getD r emptyConfig
  let ki : Option DKey × Option IterFunc :=
    if c.grid.isSome then (some DKey.grid, some IterFunc.product) else (none, none)
  let ki := if c.list.isSome then (some DKey.list, some IterFunc.zip) else ki
  params_combine_st h r ki.1 ki.2

/-- Heap-level ablative step (source lines 72-75): when the cell carries an
`ablative` block, append the ablative variants to the expansion. -/
def abl_step_st (h : List Config) (b : Bool) (ew : List Nat × List String) :
    List Config × Except String (List Nat) :=
  if b then
    let ae := ablative_expand_st h ew.1
    match ae.2 with
    | Except.error e => (ae.1, Except.error e)
    | Except.ok more => (ae.1, Except.ok (ew.1 ++ more))
  else (h, Except.ok ew.1)

/-- Heap-level work-list loop of `expand_experiments` (source lines 40-77),
step-indexed like `expand_loop`. -/
def expand_loop_st : Nat → List Config → List Nat → List Config × Except String (List Nat × List String)
  | 0, h, _ => (h, Except.error "work list budget exhausted")
  | _ + 1, h, [] => (h, Except.ok ([], []))
  | fuel + 1, h, r :: rest =>
    let sd := set_defaults_st h r
    match sd.2 with
    | Except.error e => (sd.1, Except.error e)
    | Except.ok _ =>
      let h1 := sd.1
      let c := h1.getD r emptyConfig
      if c.grid.isSome && c.list.isSome then
        let pc := params_combine_st h1 r (some DKey.list) (some IterFunc.zip)
        match pc.2 with
        | Except.error e => (pc.1, Except.error e)
        | Except.ok kw =>
          let rec2 := expand_loop_st fuel pc.1 (rest ++ kw.1)
          match rec2.2 with
          | Except.error e => (rec2.1, Except.error e)
          | Except.ok rw => (rec2.1, Except.ok (rw.1, kw.2 ++ rw.2))
      else
        let pc := step_combine_st h1 r
        match pc.2 with
        | Except.error e => (pc.1, Except.error e)
        | Except.ok ew =>
          let ab := abl_step_st pc.1 c.ablative.isSome ew
          match ab.2 with
          | Except.error e => (ab.1, Except.error e)
          | Except.ok expansion =>
            let rec2 := expand_loop_st fuel ab.1 rest
            match rec2.2 with
            | Except.error e => (rec2.1, Except.error e)
            | Except.ok rw => (rec2.1, Except.ok (expansion ++ rw.1, ew.2 ++ rw.2))

/-- Heap-level `expand_experiments` (source lines 27-78): deep-copy the whole
input list up front, run the work list over the copies, normalize. -/
def expand_experiments_st (h : List Config) (rs : List Nat) :
    List Config × Except String (List Nat × List String) :=
  let dc := deepcopyRefs h rs
  let el := expand_loop_st
    (worklistMeasure (dc.2.map (fun r => dc.1.getD r emptyConfig)) + 1) dc.1 dc.2
  match el.2 with
  | Except.error e => (el.1, Except.error e)
  | Except.ok rw =>
    let ns := normalize_st el.1 rw.1
    (ns.1, Except.ok (ns.2, rw.2))

/-- Heap-level `unroll_exp_reps` (source lines 180-202): a record already
carrying a repetition index is appended as the same reference (the source
appends the same object); otherwise one fresh cell is allocated per
repetition (the source's `deepcopy` at line 197). -/
def unroll_exp_reps_st (h : List Config) : List Nat → List Config × Except String (List Nat)
  | [] => (h, Except.ok [])
  | r :: rest =>
    let config := h.getD r emptyConfig
    if config.rep_idx.isSome then
      let u := unroll_exp_reps_st h rest
      match u.2 with
      | Except.error e => (u.1, Except.error e)
      | Except.ok res => (u.1, Except.ok (r :: res))
    else
      match config.repetitions with
      | none => (h, Except.error "KeyError: repetitions")
      | some n =>
        match rep_records config (List.range n) with
        | Except.error e => (h, Except.error e)
        | Except.ok recs =>
          let av := allocValues h recs
          let u := unroll_exp_reps_st av.1 rest
          match u.2 with
          | Except.error e => (u.1, Except.error e)
          | Except.ok res => (u.1, Except.ok (av.2 ++ res))

/-- Heap-level `unfold_exps` (source lines 12-24). -/
def unfold_exps_st (h : List Config) (rs : List Nat) :
    List Config × Except String (List Nat × List String) :=
  let ee := expand_experiments_st h rs
  match ee.2 with
  | Except.error e => (ee.1, Except.error e)
  | Except.ok pw =>
    let u := unroll_exp_reps_st ee.1 pw.1
    match u.2 with
    | Except.error e => (u.1, Except.error e)
    | Except.ok unrolled => (u.1, Except.ok (unrolled, pw.2))

/-
Association-list and deep-insertion lemmas.
-/

theorem lookupKey_setKey_same (d : List (String × PVal)) (k : String) (v : PVal) :
    lookupKey (setKey d k v) k = some v := by
  induction d with
  | nil => simp [setKey, lookupKey]
  | cons p rest ih =>
    by_cases hp : p.1 = k
    · simp [setKey, hp, lookupKey]
    · simp [setKey, hp, lookupKey, ih]

theorem lookupKey_setKey_other (d : List (String × PVal)) (k k' : String) (v : PVal)
    (hne : k ≠ k') : lookupKey (setKey d k v) k' = lookupKey d k' := by
  induction d with
  | nil => simp [setKey, lookupKey, hne]
  | cons p rest ih =>
    by_cases hp : p.1 = k
    · simp [setKey, hp, lookupKey, hne, ih]
    · simp [setKey, hp, lookupKey, hne, ih]

theorem diverge_comm (p q : List String) : diverge p q = diverge q p := by
  induction p generalizing q with
  | nil => cases q <;> simp [diverge]
  | cons a as ih =>
    cases q with
    | nil => simp [diverge]
    | cons b bs =>
      simp only [diverge, ih bs]
      by_cases hab : a = b
      · subst hab; simp
      · simp [hab, Ne.symm hab]

theorem lookupPath_insert_same : ∀ (p : List String) (d : List (String × PVal)) (v : PVal),
    p ≠ [] → lookupPath (insert_deep_dictionary d p v) p = some v := by
  intro p
  induction p with
  | nil => intro d v h; exact absurd rfl h
  | cons k ks ih =>
    intro d v _
    cases ks with
    | nil => simp [insert_deep_dictionary, lookupPath, lookupKey_setKey_same]
    | cons k2 ks2 =>
      simp only [insert_deep_dictionary, lookupPath, lookupKey_setKey_same]
      exact ih _ _ (by simp)

theorem lookupPath_insert_nil_of_diverge : ∀ (p q : List String) (a : String),
    diverge p q = true →
    lookupPath (insert_deep_dictionary [] p (PVal.atom a)) q = none := by
  intro p
  induction p with
  | nil => intro q a h; simp [diverge] at h
  | cons k ks ih =>
    intro q a h
    cases q with
    | nil => simp [diverge] at h
    | cons k' qs =>
      simp only [diverge, Bool.or_eq_true, decide_eq_true_eq] at h
      cases ks with
      | nil =>
        cases qs with
        | nil =>
          rcases h with h | h
          · simp only [insert_deep_dictionary, setKey, lookupPath, lookupKey]
            simp [fun hh => h (by simpa using hh)]
          · simp [diverge] at h
        | cons q2 qs2 =>
          by_cases hk : k = k'
          · subst hk
            simp [insert_deep_dictionary, setKey, lookupPath, lookupKey]
          · simp [insert_deep_dictionary, setKey, lookupPath, lookupKey, hk]
      | cons p2 ps2 =>
        by_cases hk : k = k'
        · subst hk
          rcases h with h | h
          · exact absurd rfl h
          · cases qs with
            | nil => simp [diverge] at h
            | cons q2 qs2 =>
              simp only [insert_deep_dictionary, lookupPath, lookupKey, if_pos rfl]
              simp only [subdict, lookupKey]
              exact ih _ _ h
        · simp [insert_deep_dictionary, setKey, lookupPath, lookupKey, hk]
          cases qs <;> simp [lookupPath, lookupKey, hk]

theorem lookupPath_insert_of_diverge :
    ∀ (p q : List String) (d : List (String × PVal)) (a : String),
    diverge p q = true →
    lookupPath (insert_deep_dictionary d p (PVal.atom a)) q = lookupPath d q := by
  intro p
  induction p with
  | nil => intro q d a h; simp [diverge] at h
  | cons k ks ih =>
    intro q d a h
    cases q with
    | nil => simp [diverge] at h
    | cons k' qs =>
      simp only [diverge, Bool.or_eq_true, decide_eq_true_eq] at h
      cases ks with
      | nil =>
        rcases h with h | h
        · have hk : k ≠ k' := fun hh => h (by simpa using hh)
          cases qs with
          | nil => simp [insert_deep_dictionary, lookupPath, lookupKey_setKey_other _ _ _ _ hk]
          | cons q2 qs2 =>
            simp only [insert_deep_dictionary, lookupPath]
            rw [lookupKey_setKey_other _ _ _ _ hk]
        · simp [diverge] at h
      | cons p2 ps2 =>
        by_cases hk : k = k'
        · subst hk
          have hqs : qs ≠ [] := by
            rcases h with h | h
            · exact absurd rfl h
            · intro hq; subst hq; simp [diverge] at h
          have hdiv : diverge (p2 :: ps2) qs = true := by
            rcases h with h | h
            · exact absurd rfl h
            · exact h
          cases qs with
          | nil => exact absurd rfl hqs
          | cons q2 qs2 =>
            simp only [insert_deep_dictionary, lookupPath]
            rw [lookupKey_setKey_same]
            simp only [subdict]
            cases hlk : lookupKey d k with
            | none => simp [lookupPath_insert_nil_of_diverge _ _ _ hdiv]
            | some pv =>
              cases pv with
              | atom s => simp [lookupPath_insert_nil_of_diverge _ _ _ hdiv]
              | dict m => simp [ih _ _ _ hdiv]
        · cases qs with
          | nil =>
            simp [insert_deep_dictionary, lookupPath, lookupKey_setKey_other _ _ _ _ hk]
          | cons q2 qs2 =>
            simp only [insert_deep_dictionary, lookupPath]
            rw [lookupKey_setKey_other _ _ _ _ hk]

theorem lookupPath_foldl_insert_untouched :
    ∀ (pairs : List (List String × String)) (d : List (String × PVal)) (q : List String),
    (∀ x ∈ pairs, diverge x.1 q = true) →
    lookupPath (pairs.foldl (fun d tv => insert_deep_dictionary d tv.1 (PVal.atom tv.2)) d) q
      = lookupPath d q := by
  intro pairs
  induction pairs with
  | nil => intro d q _; rfl
  | cons pv rest ih =>
    intro d q hall
    simp only [List.foldl_cons]
    rw [ih _ _ (fun x hx => hall x (List.mem_cons_of_mem _ hx))]
    exact lookupPath_insert_of_diverge _ _ _ _ (hall pv (List.mem_cons_self _ _))

theorem lookupPath_foldl_insert :
    ∀ (pairs : List (List String × String)) (d : List (String × PVal)),
    (∀ x ∈ pairs, x.1 ≠ []) →
    List.Pairwise (fun x y => diverge x.1 y.1 = true) pairs →
    ∀ x ∈ pairs,
      lookupPath (pairs.foldl (fun d tv => insert_deep_dictionary d tv.1 (PVal.atom tv.2)) d) x.1
        = some (PVal.atom x.2) := by
  intro pairs
  induction pairs with
  | nil => intro d _ _ x hx; cases hx
  | cons pv rest ih =>
    intro d hne hpw x hx
    simp only [List.foldl_cons]
    rcases List.mem_cons.mp hx with hx | hx
    · subst hx
      have hdv : ∀ y ∈ rest, diverge y.1 x.1 = true := by
        intro y hy
        rw [diverge_comm]
        exact (List.pairwise_cons.mp hpw).1 y hy
      rw [lookupPath_foldl_insert_untouched rest _ x.1 hdv]
      exact lookupPath_insert_same _ _ _ (hne x (List.mem_cons_self _ _))
    · exact ih _ (fun y hy => hne y (List.mem_cons_of_mem _ hy))
        (List.pairwise_cons.mp hpw).2 x hx

theorem diverge_cons_same (k : String) (p q : List String) :
    diverge (k :: p) (k :: q) = diverge p q := by
  simp [diverge]

theorem flattenKV_shape : ∀ (m : List (String × SVal)) (y : List String × List String),
    y ∈ flattenKV m → ∃ kv ∈ m, ∃ p, y.1 = kv.1 :: p := by
  intro m
  induction m with
  | nil => intro y hy; simp [flattenKV] at hy
  | cons e rest ih =>
    intro y hy
    rcases e with ⟨k, v⟩
    simp only [flattenKV, List.mem_append, List.mem_map] at hy
    rcases hy with ⟨x, _, rfl⟩ | hy
    · exact ⟨(k, v), List.mem_cons_self _ _, x.1, rfl⟩
    · rcases ih y hy with ⟨kv, hkv, p, hp⟩
      exact ⟨kv, List.mem_cons_of_mem _ hkv, p, hp⟩

theorem flattenKV_path_ne_nil (m : List (String × SVal)) (y : List String × List String)
    (hy : y ∈ flattenKV m) : y.1 ≠ [] := by
  rcases flattenKV_shape m y hy with ⟨kv, _, p, hp⟩
  rw [hp]
  simp

mutual
theorem flattenS_pairwise (v : SVal) (h : svalWFb v = true) :
    List.Pairwise (fun x y => diverge x.1 y.1 = true) (flattenS v) := by
  cases v with
  | leaf vals => simp [flattenS]
  | node entries => exact flattenKV_pairwise entries (by simpa [svalWFb] using h)

theorem flattenKV_pairwise (m : List (String × SVal)) (h : sweepWFb m = true) :
    List.Pairwise (fun x y => diverge x.1 y.1 = true) (flattenKV m) := by
  cases m with
  | nil => simp [flattenKV]
  | cons e rest =>
    rcases e with ⟨k, v⟩
    simp only [sweepWFb, Bool.and_eq_true, Bool.not_eq_true'] at h
    simp only [flattenKV]
    apply List.pairwise_append.mpr
    refine ⟨?_, flattenKV_pairwise rest h.2, ?_⟩
    · apply List.pairwise_map.mpr
      have hp := flattenS_pairwise v h.1.2
      exact hp.imp (fun hxy => by rw [diverge_cons_same]; exact hxy)
    · intro x hx y hy
      rcases List.mem_map.mp hx with ⟨x0, _, rfl⟩
      rcases flattenKV_shape rest y hy with ⟨kv, hkv, p, hp⟩
      have hkk : kv.1 ≠ k := by
        intro hkk
        have hfalse := h.1.1
        rw [List.any_eq_false] at hfalse
        exact absurd (by simpa using hkk) (by simpa using hfalse kv hkv)
      rw [hp]
      simp [diverge, Ne.symm hkk]
end

theorem sum_map_const {α : Type} (l : List α) (n : Nat) :
    (l.map (fun _ => n)).sum = l.length * n := by
  induction l with
  | nil => simp
  | cons x xs ih => simp [ih, Nat.succ_mul, Nat.add_comm]

theorem productLists_length (ls : List (List String)) :
    (productLists ls).length = (ls.map List.length).prod := by
  induction ls with
  | nil => simp [productLists]
  | cons l rest ih =>
    simp only [productLists, List.length_flatMap]
    have h1 : (List.map (List.length ∘ fun x => List.map (fun t => x :: t) (productLists rest)) l)
        = List.map (fun _ => (productLists rest).length) l := by
      apply List.map_congr_left
      intro a _
      simp [Function.comp]
    rw [h1, sum_map_const, ih]
    simp

theorem productLists_mem_length : ∀ (ls : List (List String)) (vs : List String),
    vs ∈ productLists ls → vs.length = ls.length := by
  intro ls
  induction ls with
  | nil => intro vs hvs; simp [productLists] at hvs; simp [hvs]
  | cons l rest ih =>
    intro vs hvs
    simp only [productLists, List.mem_flatMap, List.mem_map] at hvs
    rcases hvs with ⟨x, _, t, ht, rfl⟩
    simp [ih t ht]

theorem productLists_shape : ∀ (xs : List String) (rest : List (List String)) (z : List String),
    z ∈ (xs.flatMap fun y => (productLists rest).map (fun t => y :: t)) →
    ∃ y ∈ xs, ∃ t, z = y :: t := by
  intro xs rest z hz
  simp only [List.mem_flatMap, List.mem_map] at hz
  rcases hz with ⟨y, hy, t, _, rfl⟩
  exact ⟨y, hy, t, rfl⟩

theorem productLists_nodup : ∀ (ls : List (List String)),
    (∀ l ∈ ls, l.Nodup) → (productLists ls).Nodup := by
  intro ls
  induction ls with
  | nil => intro _; simp [productLists]
  | cons l rest ih =>
    intro hnd
    have hrest : (productLists rest).Nodup :=
      ih (fun x hx => hnd x (List.mem_cons_of_mem _ hx))
    have hl : l.Nodup := hnd l (List.mem_cons_self _ _)
    simp only [productLists]
    clear hnd ih
    induction l with
    | nil => simp
    | cons x xs ihx =>
      simp only [List.flatMap_cons]
      apply List.Nodup.append
      · exact hrest.map (fun a b hab => by simpa using hab)
      · exact ihx (List.nodup_cons.mp hl).2
      · intro z hz1 hz2
        rcases List.mem_map.mp hz1 with ⟨t, _, rfl⟩
        rcases productLists_shape xs rest _ hz2 with ⟨y, hy, t2, heq⟩
        have hxy : x = y := by injection heq
        exact (List.nodup_cons.mp hl).1 (hxy ▸ hy)

theorem zipLists_length : ∀ (ls : List (List String)), ls ≠ [] →
    (zipLists ls).length = minLen (ls.map List.length) := by
  intro ls
  induction ls with
  | nil => intro h; exact absurd rfl h
  | cons l rest ih =>
    intro _
    cases rest with
    | nil => simp [zipLists, minLen]
    | cons l2 rest2 =>
      simp only [zipLists, List.length_zipWith, List.map_cons]
      rw [ih (by simp)]
      simp [minLen]

theorem mem_zipWith_cons : ∀ (l : List String) (P : List (List String)) (z : List String),
    z ∈ List.zipWith (fun x t => x :: t) l P → ∃ x ∈ l, ∃ t ∈ P, z = x :: t := by
  intro l
  induction l with
  | nil => intro P z hz; simp at hz
  | cons a as ih =>
    intro P z hz
    cases P with
    | nil => simp at hz
    | cons p ps =>
      simp only [List.zipWith_cons_cons, List.mem_cons] at hz
      rcases hz with rfl | hz
      · exact ⟨a, by simp, p, by simp, rfl⟩
      · rcases ih ps z hz with ⟨x, hx, t, ht, rfl⟩
        exact ⟨x, by simp [hx], t, by simp [ht], rfl⟩

theorem zipLists_mem_length : ∀ (ls : List (List String)) (vs : List String),
    vs ∈ zipLists ls → vs.length = ls.length := by
  intro ls
  induction ls with
  | nil => intro vs hvs; simp [zipLists] at hvs
  | cons l rest ih =>
    intro vs hvs
    cases rest with
    | nil =>
      simp only [zipLists, List.mem_map] at hvs
      rcases hvs with ⟨x, _, rfl⟩
      simp
    | cons l2 rest2 =>
      rcases mem_zipWith_cons l (zipLists (l2 :: rest2)) vs hvs with ⟨x, _, t, ht, rfl⟩
      simp [ih t ht]

theorem dedup_length_eq_one_iff (l : List Nat) :
    l.dedup.length = 1 ↔ l ≠ [] ∧ ∀ a ∈ l, ∀ b ∈ l, a = b := by
  constructor
  · intro h
    rcases List.length_eq_one.mp h with ⟨a, ha⟩
    constructor
    · intro hl
      rw [hl] at ha
      simp at ha
    · intro x hx y hy
      have hx' : x ∈ l.dedup := List.mem_dedup.mpr hx
      have hy' : y ∈ l.dedup := List.mem_dedup.mpr hy
      rw [ha] at hx' hy'
      simp at hx' hy'
      rw [hx', hy']
  · rintro ⟨hne, hall⟩
    rcases List.exists_mem_of_ne_nil l hne with ⟨x, hx⟩
    have hsub : ∀ y ∈ l.dedup, y = x := fun y hy => hall y (List.mem_dedup.mp hy) x hx
    have hnd := l.nodup_dedup
    have hmem : x ∈ l.dedup := List.mem_dedup.mpr hx
    cases hd : l.dedup with
    | nil => rw [hd] at hmem; cases hmem
    | cons a t =>
      cases t with
      | nil => simp
      | cons b t2 =>
        exfalso
        rw [hd] at hsub hnd
        have ha : a = x := hsub a (by simp)
        have hb : b = x := hsub b (by simp)
        rw [List.nodup_cons] at hnd
        exact hnd.1 (by rw [ha, hb]; simp)

/-
Name-synthesizer and combination-engine lemmas.
-/

theorem extend_config_name_eq (config : Config) (param_names values : List String)
    (en nm : String) (hen : config.experiment_name = some en) (hnm : config.name = some nm) :
    extend_config_name config param_names values = Except.ok { config with
      experiment_name := some (en ++ (if strContainsSub en "__" then "_" else "__")
        ++ convert_param_names param_names values),
      nested_dir := some nm } := by
  simp [extend_config_name, hen, hnm]

theorem extend_config_name_fields (a b : Config) (p v : List String)
    (h : extend_config_name a p v = Except.ok b) :
    b.grid = a.grid ∧ b.list = a.list ∧ b.ablative = a.ablative ∧
    b.repetitions = a.repetitions ∧ b.rep_idx = a.rep_idx ∧ b.params = a.params ∧
    b.name = a.name ∧ b.basic_path = a.basic_path ∧ b.log_path = a.log_path ∧
    b.path = a.path ∧ b.experiment_name.isSome = true ∧ b.nested_dir.isSome = true := by
  unfold extend_config_name at h
  cases hen : a.experiment_name with
  | none => rw [hen] at h; simp at h
  | some en =>
    cases hnm : a.name with
    | none => rw [hen, hnm] at h; simp at h
    | some nm =>
      rw [hen, hnm] at h
      simp only [Except.ok.injEq] at h
      subst h
      simp

theorem combine_loop_eq (config : Config) (k : DKey) (td : List (List String × List String))
    (names : List String) (en nm : String)
    (hen : config.experiment_name = some en) (hnm : config.name = some nm) :
    ∀ (combos : List (List String)),
    combine_loop config k td names combos = Except.ok (combos.map (fun values =>
      { delDirective config k with
          params := some ((List.zip (td.map (fun t => t.1)) values).foldl
            (fun d tv => insert_deep_dictionary d tv.1 (PVal.atom tv.2))
            ((config.params).getD [])),
          experiment_name := some (en ++ (if strContainsSub en "__" then "_" else "__")
            ++ convert_param_names names values),
          nested_dir := some nm })) := by
  intro combos
  induction combos with
  | nil => rfl
  | cons values more ih =>
    cases k with
    | grid =>
      cases hp : config.params with
      | none =>
        simp [combine_loop, delDirective, extend_config_name, hen, hnm, hp, ih]
      | some p =>
        simp [combine_loop, delDirective, extend_config_name, hen, hnm, hp, ih]
    | list =>
      cases hp : config.params with
      | none =>
        simp [combine_loop, delDirective, extend_config_name, hen, hnm, hp, ih]
      | some p =>
        simp [combine_loop, delDirective, extend_config_name, hen, hnm, hp, ih]

theorem params_combine_no_iter (config : Config) (key : Option DKey) :
    params_combine config key none = Except.ok ([config], []) := rfl

theorem params_combine_eq (config : Config) (k : DKey) (itf : IterFunc)
    (sweep : List (String × SVal)) (en nm : String)
    (hsw : getDirective config k = some sweep)
    (hen : config.experiment_name = some en) (hnm : config.name = some nm) :
    params_combine config (some k) (some itf) = Except.ok
      (((applyIter itf ((flatten_dict_to_tuple_keys sweep).map (fun t => t.2))).map (fun values =>
        { delDirective config k with
            params := some
              ((List.zip ((flatten_dict_to_tuple_keys sweep).map (fun t => t.1)) values).foldl
                (fun d tv => insert_deep_dictionary d tv.1 (PVal.atom tv.2))
                ((config.params).getD [])),
            experiment_name := some (en ++ (if strContainsSub en "__" then "_" else "__")
              ++ convert_param_names ((flatten_dict_to_tuple_keys sweep).map
                (fun t => String.intercalate "." t.1)) values),
            nested_dir := some nm })),
       (if k = DKey.list ∧
           (((flatten_dict_to_tuple_keys sweep).map (fun t => t.2.length)).dedup.length ≠ 1)
        then ["list params of experiment " ++ nm ++ " are not of equal length."] else [])) := by
  have hcl := combine_loop_eq config k (flatten_dict_to_tuple_keys sweep)
    ((flatten_dict_to_tuple_keys sweep).map (fun t => String.intercalate "." t.1)) en nm hen hnm
    (applyIter itf ((flatten_dict_to_tuple_keys sweep).map (fun t => t.2)))
  by_cases hk : k = DKey.list
  · subst hk
    by_cases hddp :
        ((flatten_dict_to_tuple_keys sweep).map (fun t => t.2.length)).dedup.length = 1
    · simp [params_combine, hsw, hnm, hddp, hcl]
    · simp [params_combine, hsw, hnm, hddp, hcl]
  · have hno : ¬(k = DKey.list ∧
        (((flatten_dict_to_tuple_keys sweep).map (fun t => t.2.length)).dedup.length ≠ 1)) :=
      fun hc => hk hc.1
    simp [params_combine, hsw, hk, hcl, hno]

theorem set_defaults_fields (a b : Config) (h : set_defaults a = Except.ok b) :
    b.grid = a.grid ∧ b.list = a.list ∧ b.ablative = a.ablative ∧
    b.repetitions = a.repetitions ∧ b.rep_idx = a.rep_idx ∧ b.params = a.params ∧
    b.name = a.name ∧ b.path = a.path ∧ b.log_path = a.log_path ∧
    (b.basic_path).isSome = true ∧ (b.experiment_name).isSome = true ∧
    (b.nested_dir).isSome = true := by
  cases hbp : a.basic_path <;> cases hp : a.path <;>
    cases hen : a.experiment_name <;> cases hn : a.name <;> cases hnd : a.nested_dir <;>
    simp_all [set_defaults] <;> (subst h; simp_all)

theorem set_defaults_of_complete (a : Config) (h1 : (a.basic_path).isSome = true)
    (h2 : (a.experiment_name).isSome = true) (h3 : (a.nested_dir).isSome = true) :
    set_defaults a = Except.ok a := by
  simp [set_defaults, h1, h2, h3]

theorem abl_val_loop_eq (config : Config) (key : List String) (name_i : String)
    (en nm : String) (hen : config.experiment_name = some en) (hnm : config.name = some nm) :
    ∀ vals, abl_val_loop config key name_i vals = Except.ok (vals.map (fun val =>
      { config with
          params := some (insert_deep_dictionary ((config.params).getD []) key (PVal.atom val)),
          experiment_name := some (en ++ (if strContainsSub en "__" then "_" else "__")
            ++ convert_param_names [name_i] [val]),
          nested_dir := some nm })) := by
  intro vals
  induction vals with
  | nil => rfl
  | cons val more ih =>
    cases hp : config.params with
    | none => simp [abl_val_loop, extend_config_name, hen, hnm, hp, ih]
    | some p => simp [abl_val_loop, extend_config_name, hen, hnm, hp, ih]

theorem abl_key_loop_spec (config : Config) (names : List String)
    (en nm : String) (hen : config.experiment_name = some en) (hnm : config.name = some nm) :
    ∀ (entries : List (List String × List String)) (i : Nat),
    ∃ out, abl_key_loop config names i entries = Except.ok out ∧
      out.length = (entries.map (fun t => t.2.length)).sum ∧
      ∀ v ∈ out, ∃ t ∈ entries, ∃ val ∈ t.2,
        v.params = some (insert_deep_dictionary ((config.params).getD []) t.1 (PVal.atom val)) ∧
        v.ablative = config.ablative ∧ v.grid = config.grid ∧ v.list = config.list ∧
        v.repetitions = config.repetitions ∧ v.rep_idx = config.rep_idx ∧
        v.name = config.name := by
  intro entries
  induction entries with
  | nil => intro i; exact ⟨[], rfl, by simp, by intro v hv; cases hv⟩
  | cons e more ih =>
    intro i
    rcases e with ⟨key, vals⟩
    rcases ih (i + 1) with ⟨out2, hout2, hlen2, hmem2⟩
    refine ⟨(vals.map (fun val =>
      { config with
          params := some (insert_deep_dictionary ((config.params).getD []) key (PVal.atom val)),
          experiment_name := some (en ++ (if strContainsSub en "__" then "_" else "__")
            ++ convert_param_names [names.getD i ""] [val]),
          nested_dir := some nm })) ++ out2, ?_, ?_, ?_⟩
    · simp only [abl_key_loop]
      rw [abl_val_loop_eq config key (names.getD i "") en nm hen hnm vals, hout2]
    · simp [hlen2]
    · intro v hv
      rcases List.mem_append.mp hv with hv | hv
      · rcases List.mem_map.mp hv with ⟨val, hval, rfl⟩
        exact ⟨(key, vals), List.mem_cons_self _ _, val, hval, by simp⟩
      · rcases hmem2 v hv with ⟨t, ht, val, hval, hrest⟩
        exact ⟨t, List.mem_cons_of_mem _ ht, val, hval, hrest⟩

theorem ablative_expand_spec : ∀ (bases : List Config),
    (∀ b ∈ bases, (b.ablative).isSome = true ∧ (b.experiment_name).isSome = true ∧
      (b.name).isSome = true) →
    ∃ out, ablative_expand bases = Except.ok out ∧
      out.length = (bases.map (fun b =>
        ((flatten_dict_to_tuple_keys ((b.ablative).getD [])).map (fun t => t.2.length)).sum)).sum ∧
      ∀ v ∈ out, ∃ b ∈ bases, ∃ t ∈ flatten_dict_to_tuple_keys ((b.ablative).getD []),
        ∃ val ∈ t.2,
        v.params = some (insert_deep_dictionary ((b.params).getD []) t.1 (PVal.atom val)) ∧
        v.ablative = b.ablative ∧ v.grid = b.grid ∧ v.list = b.list ∧
        v.repetitions = b.repetitions ∧ v.rep_idx = b.rep_idx ∧ v.name = b.name := by
  intro bases
  induction bases with
  | nil => intro _; exact ⟨[], rfl, by simp, by intro v hv; cases hv⟩
  | cons b more ih =>
    intro hall
    rcases hall b (List.mem_cons_self _ _) with ⟨habl, hen, hnm⟩
    rcases Option.isSome_iff_exists.mp habl with ⟨abl, habl'⟩
    rcases Option.isSome_iff_exists.mp hen with ⟨en, hen'⟩
    rcases Option.isSome_iff_exists.mp hnm with ⟨nm, hnm'⟩
    rcases ih (fun x hx => hall x (List.mem_cons_of_mem _ hx)) with ⟨out2, hout2, hlen2, hmem2⟩
    rcases abl_key_loop_spec b ((flatten_dict_to_tuple_keys abl).map
        (fun t => String.intercalate "." t.1)) en nm hen' hnm'
        (flatten_dict_to_tuple_keys abl) 0 with ⟨out1, hout1, hlen1, hmem1⟩
    refine ⟨out1 ++ out2, ?_, ?_, ?_⟩
    · simp only [ablative_expand, habl', hout1, hout2]
    · simp [hlen1, hlen2, habl']
    · intro v hv
      rcases List.mem_append.mp hv with hv | hv
      · rcases hmem1 v hv with ⟨t, ht, val, hval, hrest⟩
        refine ⟨b, List.mem_cons_self _ _, t, ?_, val, hval, hrest⟩
        rw [habl']
        simpa using ht
      · rcases hmem2 v hv with ⟨b2, hb2, t, ht, val, hval, hrest⟩
        exact ⟨b2, List.mem_cons_of_mem _ hb2, t, ht, val, hval, hrest⟩

theorem normalize_length (l : List Config) :
    (normalize_expanded_paths l).length = l.length := by
  simp [normalize_expanded_paths]

theorem normalize_mem_fields (l : List Config) (r : Config)
    (hr : r ∈ normalize_expanded_paths l) :
    ∃ c ∈ l, r.grid = c.grid ∧ r.list = c.list ∧ r.ablative = c.ablative ∧
      r.params = c.params ∧ r.repetitions = c.repetitions ∧ r.rep_idx = c.rep_idx ∧
      r.name = c.name ∧ r.experiment_name = c.experiment_name ∧
      r.nested_dir = c.nested_dir ∧ r.basic_path = c.basic_path := by
  rcases List.mem_map.mp hr with ⟨c, hc, rfl⟩
  exact ⟨c, hc, by simp⟩

theorem normalize_map_params (l : List Config) :
    (normalize_expanded_paths l).map (fun r => r.params) = l.map (fun r => r.params) := by
  simp [normalize_expanded_paths]

theorem normalize_map_experiment_name (l : List Config) :
    (normalize_expanded_paths l).map (fun r => r.experiment_name)
      = l.map (fun r => r.experiment_name) := by
  simp [normalize_expanded_paths]

theorem combine_loop_mem_fields :
    ∀ (config : Config) (k : DKey) (td : List (List String × List String))
      (names : List String) (combos : List (List String)) (recs : List Config),
    combine_loop config k td names combos = Except.ok recs →
    ∀ x ∈ recs, x.grid = (delDirective config k).grid ∧
      x.list = (delDirective config k).list ∧
      x.ablative = config.ablative ∧ x.repetitions = config.repetitions ∧
      x.rep_idx = config.rep_idx ∧ x.name = config.name ∧
      x.basic_path = config.basic_path ∧
      (x.experiment_name).isSome = true ∧ (x.nested_dir).isSome = true := by
  intro config k td names combos
  induction combos with
  | nil =>
    intro recs h x hx
    simp only [combine_loop, Except.ok.injEq] at h
    subst h
    cases hx
  | cons values more ih =>
    intro recs h x hx
    cases k <;> cases hp : config.params <;>
      simp only [combine_loop, delDirective, hp] at h <;>
      [skip; skip; skip; skip] <;>
      (split at h
       · exact absurd h (by simp)
       · rename_i cfg hext
         split at h
         · exact absurd h (by simp)
         · rename_i res hcmb
           simp only [Except.ok.injEq] at h
           subst h
           rcases List.mem_cons.mp hx with rfl | hx2
           · rcases extend_config_name_fields _ _ _ _ hext with
               ⟨hg, hl, ha, hr, hri, hpp, hn, hbp, hlp, hpa, hes, hnd⟩
             refine ⟨?_, ?_, ?_, ?_, ?_, ?_, ?_, hes, hnd⟩ <;>
               simp_all [delDirective]
           · have := ih res hcmb x hx2
             simpa [delDirective] using this)

theorem abl_val_loop_mem_fields :
    ∀ (config : Config) (key : List String) (name_i : String) (vals : List String)
      (recs : List Config),
    abl_val_loop config key name_i vals = Except.ok recs →
    ∀ x ∈ recs, x.grid = config.grid ∧ x.list = config.list ∧
      x.ablative = config.ablative ∧ x.repetitions = config.repetitions ∧
      x.rep_idx = config.rep_idx ∧ x.name = config.name := by
  intro config key name_i vals
  induction vals with
  | nil =>
    intro recs h x hx
    simp only [abl_val_loop, Except.ok.injEq] at h
    subst h
    cases hx
  | cons val more ih =>
    intro recs h x hx
    cases hp : config.params <;>
      simp only [abl_val_loop, hp] at h <;>
      (split at h
       · exact absurd h (by simp)
       · rename_i cfg hext
         split at h
         · exact absurd h (by simp)
         · rename_i res hcmb
           simp only [Except.ok.injEq] at h
           subst h
           rcases List.mem_cons.mp hx with rfl | hx2
           · rcases extend_config_name_fields _ _ _ _ hext with
               ⟨hg, hl, ha, hr, hri, hpp, hn, hbp, hlp, hpa, hes, hnd⟩
             simp_all
           · exact ih res hcmb x hx2)

theorem abl_key_loop_mem_fields :
    ∀ (config : Config) (names : List String) (entries : List (List String × List String))
      (i : Nat) (recs : List Config),
    abl_key_loop config names i entries = Except.ok recs →
    ∀ x ∈ recs, x.grid = config.grid ∧ x.list = config.list ∧
      x.ablative = config.ablative ∧ x.repetitions = config.repetitions ∧
      x.rep_idx = config.rep_idx ∧ x.name = config.name := by
  intro config names entries
  induction entries with
  | nil =>
    intro i recs h x hx
    simp only [abl_key_loop, Except.ok.injEq] at h
    subst h
    cases hx
  | cons e more ih =>
    rcases e with ⟨key, vals⟩
    intro i recs h x hx
    simp only [abl_key_loop] at h
    split at h
    · exact absurd h (by simp)
    · rename_i first hfirst
      split at h
      · exact absurd h (by simp)
      · rename_i rest hrest
        simp only [Except.ok.injEq] at h
        subst h
        rcases List.mem_append.mp hx with hx | hx
        · exact abl_val_loop_mem_fields config key _ vals first hfirst x hx
        · exact ih (i + 1) rest hrest x hx

theorem ablative_expand_mem_fields :
    ∀ (bases : List Config) (out : List Config),
    ablative_expand bases = Except.ok out →
    ∀ v ∈ out, ∃ b ∈ bases, v.grid = b.grid ∧ v.list = b.list ∧
      v.repetitions = b.repetitions ∧ v.rep_idx = b.rep_idx := by
  intro bases
  induction bases with
  | nil =>
    intro out h v hv
    simp only [ablative_expand, Except.ok.injEq] at h
    subst h
    cases hv
  | cons b more ih =>
    intro out h v hv
    simp only [ablative_expand] at h
    split at h
    · exact absurd h (by simp)
    · rename_i abl habl
      split at h
      · exact absurd h (by simp)
      · rename_i this hthis
        split at h
        · exact absurd h (by simp)
        · rename_i rest hrest
          simp only [Except.ok.injEq] at h
          subst h
          rcases List.mem_append.mp hv with hv | hv
          · rcases abl_key_loop_mem_fields b _ _ 0 this hthis v hv with
              ⟨hg, hl, _, hr, hri, _⟩
            exact ⟨b, List.mem_cons_self _ _, hg, hl, hr, hri⟩
          · rcases ih rest hrest v hv with ⟨b2, hb2, hrest2⟩
            exact ⟨b2, List.mem_cons_of_mem _ hb2, hrest2⟩

theorem params_combine_some_mem_fields (config : Config) (k : DKey) (itf : IterFunc)
    (recs : List Config) (ws : List String)
    (h : params_combine config (some k) (some itf) = Except.ok (recs, ws)) :
    ∀ x ∈ recs, x.grid = (delDirective config k).grid ∧
      x.list = (delDirective config k).list ∧
      x.ablative = config.ablative ∧ x.repetitions = config.repetitions ∧
      x.rep_idx = config.rep_idx ∧ x.name = config.name ∧
      x.basic_path = config.basic_path ∧
      (x.experiment_name).isSome = true ∧ (x.nested_dir).isSome = true := by
  simp only [params_combine] at h
  split at h
  · exact absurd h (by simp)
  · rename_i sweep hsw
    split at h
    · exact absurd h (by simp)
    · rename_i warns hwarns
      split at h
      · exact absurd h (by simp)
      · rename_i recs2 hcmb
        simp only [Except.ok.injEq, Prod.mk.injEq] at h
        exact fun x hx => combine_loop_mem_fields config k _ _ _ recs2 hcmb x (h.1 ▸ hx)

theorem ablative_step_members (c : Config) (base expansion : List Config)
    (h : (if (c.ablative).isSome = true then
            match ablative_expand base with
            | Except.error e => Except.error e
            | Except.ok more => Except.ok (base ++ more)
          else Except.ok base) = Except.ok expansion)
    (hbase : ∀ x ∈ base, x.grid = none ∧ x.list = none ∧
      x.repetitions = c.repetitions ∧ x.rep_idx = c.rep_idx) :
    ∀ x ∈ expansion, x.grid = none ∧ x.list = none ∧
      x.repetitions = c.repetitions ∧ x.rep_idx = c.rep_idx := by
  by_cases hab : (c.ablative).isSome = true
  · rw [if_pos hab] at h
    cases habl : ablative_expand base with
    | error e => rw [habl] at h; exact absurd h (by simp)
    | ok more =>
      rw [habl] at h
      simp only [Except.ok.injEq] at h
      subst h
      intro x hx
      rcases List.mem_append.mp hx with hx | hx
      · exact hbase x hx
      · rcases ablative_expand_mem_fields base more habl x hx with ⟨b, hb, hg, hl, hr, hri⟩
        rcases hbase b hb with ⟨hbg, hbl, hbr, hbri⟩
        exact ⟨hg.trans hbg, hl.trans hbl, hr.trans hbr, hri.trans hbri⟩
  · rw [if_neg hab] at h
    simp only [Except.ok.injEq] at h
    subst h
    exact hbase

theorem expand_loop_mem_inv : ∀ (fuel : Nat) (work res : List Config) (ws : List String),
    expand_loop fuel work = Except.ok (res, ws) →
    ∀ r ∈ res, r.grid = none ∧ r.list = none ∧
      ∃ c ∈ work, r.repetitions = c.repetitions ∧ r.rep_idx = c.rep_idx := by
  intro fuel
  induction fuel with
  | zero => intro work res ws h; simp [expand_loop] at h
  | succ f ih =>
    intro work res ws h
    cases work with
    | nil =>
      simp only [expand_loop, Except.ok.injEq, Prod.mk.injEq] at h
      intro r hr
      rw [← h.1] at hr
      cases hr
    | cons config rest =>
      simp only [expand_loop] at h
      split at h
      · exact absurd h (by simp)
      · rename_i c hsd
        rcases set_defaults_fields config c hsd with
          ⟨hsg, hsl, hsa, hsr, hsri, hsp, hsn, hspa, hslp, hbp1, hen1, hnd1⟩
        split at h
        · rename_i hb
          split at h
          · exact absurd h (by simp)
          · rename_i kw hpc
            split at h
            · exact absurd h (by simp)
            · rename_i rw2 hrec
              simp only [Except.ok.injEq, Prod.mk.injEq] at h
              intro r hr
              rw [← h.1] at hr
              rcases ih _ _ _ hrec r hr with ⟨hg, hl, c2, hc2, hr1, hr2⟩
              refine ⟨hg, hl, ?_⟩
              rcases List.mem_append.mp hc2 with hc2 | hc2
              · exact ⟨c2, List.mem_cons_of_mem _ hc2, hr1, hr2⟩
              · rcases params_combine_some_mem_fields c DKey.list IterFunc.zip kw.1 kw.2
                    hpc c2 hc2 with ⟨_, _, _, hcr, hcri, _, _, _, _⟩
                exact ⟨config, List.mem_cons_self _ _,
                  by rw [hr1, hcr, hsr], by rw [hr2, hcri, hsri]⟩
        · rename_i hb
          split at h
          · exact absurd h (by simp)
          · rename_i ew hpc
            split at h
            · exact absurd h (by simp)
            · rename_i expansion hexp
              split at h
              · exact absurd h (by simp)
              · rename_i rw2 hrec
                simp only [Except.ok.injEq, Prod.mk.injEq] at h
                have hbase : ∀ x ∈ ew.1, x.grid = none ∧ x.list = none ∧
                    x.repetitions = c.repetitions ∧ x.rep_idx = c.rep_idx := by
                  by_cases hcl : (c.list).isSome = true
                  · have hcgn : c.grid = none := by
                      cases hcg : c.grid with
                      | none => rfl
                      | some g => exact absurd (by simp [hcg, hcl]) hb
                    simp only [hcl, if_true] at hpc
                    intro x hx
                    rcases params_combine_some_mem_fields c DKey.list IterFunc.zip ew.1 ew.2
                        hpc x hx with ⟨hg, hl, _, hr, hri, _, _, _, _⟩
                    refine ⟨?_, ?_, hr, hri⟩
                    · rw [hg]; simp [delDirective, hcgn]
                    · rw [hl]; simp [delDirective]
                  · have hcln : c.list = none := by
                      cases hclc : c.list with
                      | none => rfl
                      | some l => exact absurd (by simp [hclc]) hcl
                    by_cases hcg : (c.grid).isSome = true
                    · simp only [hcl, hcg, if_true, if_false] at hpc
                      intro x hx
                      rcases params_combine_some_mem_fields c DKey.grid IterFunc.product
                          ew.1 ew.2 hpc x hx with ⟨hg, hl, _, hr, hri, _, _, _, _⟩
                      refine ⟨?_, ?_, hr, hri⟩
                      · rw [hg]; simp [delDirective]
                      · rw [hl]; simp [delDirective, hcln]
                    · have hcgn : c.grid = none := by
                        cases hcgc : c.grid with
                        | none => rfl
                        | some g => exact absurd (by simp [hcgc]) hcg
                      simp [hcl, hcg] at hpc
                      rw [params_combine_no_iter] at hpc
                      simp only [Except.ok.injEq] at hpc
                      intro x hx
                      rw [← hpc] at hx
                      rcases List.mem_singleton.mp hx with rfl
                      exact ⟨hcgn, hcln, rfl, rfl⟩
                have hexpm := ablative_step_members c ew.1 expansion hexp hbase
                intro r hr
                rw [← h.1] at hr
                rcases List.mem_append.mp hr with hr | hr
                · rcases hexpm r hr with ⟨hg, hl, hrr, hrri⟩
                  exact ⟨hg, hl, config, List.mem_cons_self _ _,
                    by rw [hrr, hsr], by rw [hrri, hsri]⟩
                · rcases ih _ _ _ hrec r hr with ⟨hg, hl, c2, hc2, hr1, hr2⟩
                  exact ⟨hg, hl, c2, List.mem_cons_of_mem _ hc2, hr1, hr2⟩

theorem expand_loop_cons_both (f : Nat) (config c : Config) (rest : List Config)
    (hsd : set_defaults config = Except.ok c)
    (hb : (c.grid.isSome && c.list.isSome) = true) :
    expand_loop (f + 1) (config :: rest) =
      match params_combine c (some DKey.list) (some IterFunc.zip) with
      | Except.error e => Except.error e
      | Except.ok kw =>
        match expand_loop f (rest ++ kw.1) with
        | Except.error e => Except.error e
        | Except.ok rw2 => Except.ok (rw2.1, kw.2 ++ rw2.2) := by
  simp only [expand_loop, hsd]
  rw [if_pos hb]

theorem expand_loop_cons_not_both (f : Nat) (config c : Config) (rest : List Config)
    (hsd : set_defaults config = Except.ok c)
    (hb : (c.grid.isSome && c.list.isSome) = false) :
    expand_loop (f + 1) (config :: rest) =
      (match params_combine c
          (if c.list.isSome = true then (some DKey.list, some IterFunc.zip)
           else if c.grid.isSome = true then (some DKey.grid, some IterFunc.product)
           else (none, none)).1
          (if c.list.isSome = true then (some DKey.list, some IterFunc.zip)
           else if c.grid.isSome = true then (some DKey.grid, some IterFunc.product)
           else (none, none)).2 with
       | Except.error e => Except.error e
       | Except.ok ew =>
         match (if (c.ablative).isSome = true then
                  match ablative_expand ew.1 with
                  | Except.error e => Except.error e
                  | Except.ok more => Except.ok (ew.1 ++ more)
                else Except.ok ew.1) with
         | Except.error e => Except.error e
         | Except.ok expansion =>
           match expand_loop f rest with
           | Except.error e => Except.error e
           | Except.ok rw2 => Except.ok (expansion ++ rw2.1, ew.2 ++ rw2.2)) := by
  simp only [expand_loop, hsd]
  rw [if_neg (by simp [hb])]

theorem expand_loop_nil_of_pos (f : Nat) (hf : f ≠ 0) :
    expand_loop f [] = Except.ok ([], []) := by
  cases f with
  | zero => exact absurd rfl hf
  | succ f2 => rfl

theorem expand_experiments_single_not_both (c c' : Config)
    (hsd : set_defaults c = Except.ok c')
    (hb : ((c'.grid).isSome && (c'.list).isSome) = false) :
    expand_experiments [c] =
      (match params_combine c'
          (if (c'.list).isSome = true then (some DKey.list, some IterFunc.zip)
           else if (c'.grid).isSome = true then (some DKey.grid, some IterFunc.product)
           else (none, none)).1
          (if (c'.list).isSome = true then (some DKey.list, some IterFunc.zip)
           else if (c'.grid).isSome = true then (some DKey.grid, some IterFunc.product)
           else (none, none)).2 with
       | Except.error e => Except.error e
       | Except.ok ew =>
         match (if (c'.ablative).isSome = true then
                  match ablative_expand ew.1 with
                  | Except.error e => Except.error e
                  | Except.ok more => Except.ok (ew.1 ++ more)
                else Except.ok ew.1) with
         | Except.error e => Except.error e
         | Except.ok expansion =>
           Except.ok (normalize_expanded_paths expansion, ew.2)) := by
  have h1 : worklistMeasure [c] + 1 = configWeight c + 1 := by simp [worklistMeasure]
  unfold expand_experiments
  rw [h1, expand_loop_cons_not_both (configWeight c) c c' [] hsd hb,
    expand_loop_nil_of_pos (configWeight c) (by unfold configWeight; split <;> omega)]
  cases hpc : params_combine c'
      (if (c'.list).isSome = true then (some DKey.list, some IterFunc.zip)
       else if (c'.grid).isSome = true then (some DKey.grid, some IterFunc.product)
       else (none, none)).1
      (if (c'.list).isSome = true then (some DKey.list, some IterFunc.zip)
       else if (c'.grid).isSome = true then (some DKey.grid, some IterFunc.product)
       else (none, none)).2 with
  | error e => rfl
  | ok ew =>
    cases hexp : (if (c'.ablative).isSome = true then
        match ablative_expand ew.1 with
        | Except.error e => Except.error e
        | Except.ok more => Except.ok (ew.1 ++ more)
      else Except.ok ew.1) with
    | error e => simp [hexp]
    | ok expansion => simp [hexp]

theorem expand_experiments_single_both (c c' : Config)
    (hsd : set_defaults c = Except.ok c')
    (hb : ((c'.grid).isSome && (c'.list).isSome) = true) :
    expand_experiments [c] =
      (match params_combine c' (some DKey.list) (some IterFunc.zip) with
       | Except.error e => Except.error e
       | Except.ok kw =>
         match expand_loop (configWeight c) kw.1 with
         | Except.error e => Except.error e
         | Except.ok rw2 => Except.ok (normalize_expanded_paths rw2.1, kw.2 ++ rw2.2)) := by
  have h1 : worklistMeasure [c] + 1 = configWeight c + 1 := by simp [worklistMeasure]
  unfold expand_experiments
  rw [h1, expand_loop_cons_both (configWeight c) c c' [] hsd hb]
  cases hpc : params_combine c' (some DKey.list) (some IterFunc.zip) with
  | error e => rfl
  | ok kw =>
    simp only [List.nil_append]
    cases hrec : expand_loop (configWeight c) kw.1 with
    | error e => rfl
    | ok rw2 => rfl

/-- C9: for a template containing neither a `grid` nor a `list` directive the
combination engine returns the single unmodified (deep-copied) template as a
singleton list, and the driver-level expansion of such a template (carrying no
`ablative` block either) degenerates to the identity: the one record, with
only the bookkeeping defaults set, passed through path normalization. -/
theorem identity_expansion_directive_free (c c' : Config)
    (hg : c.grid = none) (hl : c.list = none) (ha : c.ablative = none)
    (hsd : set_defaults c = Except.ok c') :
    params_combine c' none none = Except.ok ([c'], []) ∧
    expand_experiments [c] = Except.ok (normalize_expanded_paths [c'], []) := by
  rcases set_defaults_fields c c' hsd with ⟨hsg, hsl, hsa, _⟩
  have hg' : c'.grid = none := by rw [hsg, hg]
  have hl' : c'.list = none := by rw [hsl, hl]
  have ha' : c'.ablative = none := by rw [hsa, ha]
  refine ⟨rfl, ?_⟩
  rw [expand_experiments_single_not_both c c' hsd (by simp [hg'])]
  simp only [hl', hg', Option.isSome_none, Bool.false_eq_true, if_false]
  rw [params_combine_no_iter]
  simp [ha']

theorem identity_expansion_directive_free_witness :
    (let c0 : Config := { name := some "e", path := some "/p", repetitions := some 1, basic_path := some "/p", experiment_name := some "e", nested_dir := some "" };
     params_combine c0 none none = Except.ok ([c0], []) ∧
     expand_experiments [c0] = Except.ok (normalize_expanded_paths [c0], [])) :=
  identity_expansion_directive_free _ _ rfl rfl rfl rfl

/-- C7: the name synthesizer appends the value-derived suffix to
`_experiment_name` with separator `__` when the current name does not contain
`__`, and with separator `_` when it already does; in both cases
`_nested_dir` is set to the template's original `name`. -/
theorem name_synthesizer_separator (config : Config) (param_names values : List String)
    (en nm : String) (hen : config.experiment_name = some en)
    (hnm : config.name = some nm) :
    (strContainsSub en "__" = false →
      extend_config_name config param_names values = Except.ok { config with
        experiment_name := some (en ++ "__" ++ convert_param_names param_names values),
        nested_dir := some nm }) ∧
    (strContainsSub en "__" = true →
      extend_config_name config param_names values = Except.ok { config with
        experiment_name := some (en ++ "_" ++ convert_param_names param_names values),
        nested_dir := some nm }) := by
  constructor <;> intro hc <;>
    rw [extend_config_name_eq config param_names values en nm hen hnm] <;> simp [hc]

theorem name_synthesizer_separator_witness :
    (let c0 : Config := { name := some "exp", experiment_name := some "exp" };
     (strContainsSub "exp" "__" = false →
       extend_config_name c0 ["lr"] ["0.1"] = Except.ok { c0 with
         experiment_name := some ("exp" ++ "__" ++ convert_param_names ["lr"] ["0.1"]),
         nested_dir := some "exp" }) ∧
     (strContainsSub "exp" "__" = true →
       extend_config_name c0 ["lr"] ["0.1"] = Except.ok { c0 with
         experiment_name := some ("exp" ++ "_" ++ convert_param_names ["lr"] ["0.1"]),
         nested_dir := some "exp" })) :=
  name_synthesizer_separator _ ["lr"] ["0.1"] "exp" "exp" rfl rfl

theorem rep_records_eq (config : Config) (lp : String) (hlp : config.log_path = some lp) :
    ∀ (rs : List Nat), rep_records config rs = Except.ok (rs.map (fun r =>
      { config with
          rep_idx := some r,
          rep_log_path := some (os_path_join lp ("rep_" ++ format02 r)) })) := by
  intro rs
  induction rs with
  | nil => rfl
  | cons r more ih => simp [rep_records, hlp, ih]

/-- C4: a record without a repetition index and with `repetitions = R` is
unrolled into exactly `R` deep copies carrying indices `0..R-1` in ascending
order, each with repetition log path `log_path/rep_{r:02d}`; a record already
carrying a repetition index passes through unchanged as exactly one record. -/
theorem repetition_unrolling (config : Config) (rest : List Config) (R : Nat) (lp : String)
    (tail : List Config)
    (hidx : config.rep_idx = none) (hreps : config.repetitions = some R)
    (hlp : config.log_path = some lp)
    (htail : unroll_exp_reps rest = Except.ok tail) :
    (unroll_exp_reps (config :: rest) = Except.ok (((List.range R).map (fun r =>
      { config with
          rep_idx := some r,
          rep_log_path := some (os_path_join lp ("rep_" ++ format02 r)) })) ++ tail)) ∧
    (∀ (c2 : Config) (rest2 tail2 : List Config),
      (c2.rep_idx).isSome = true → unroll_exp_reps rest2 = Except.ok tail2 →
      unroll_exp_reps (c2 :: rest2) = Except.ok (c2 :: tail2)) := by
  constructor
  · simp [unroll_exp_reps, hidx, hreps, rep_records_eq config lp hlp, htail]
  · intro c2 rest2 tail2 hidx2 htail2
    simp [unroll_exp_reps, hidx2, htail2]

theorem repetition_unrolling_witness :
    (let c0 : Config := { name := some "e", repetitions := some 2, log_path := some "/out/e/log" };
     (unroll_exp_reps [c0] = Except.ok (((List.range 2).map (fun r =>
       { c0 with
           rep_idx := some r,
           rep_log_path := some (os_path_join "/out/e/log" ("rep_" ++ format02 r)) })) ++ [])) ∧
     (∀ (c2 : Config) (rest2 tail2 : List Config),
       (c2.rep_idx).isSome = true → unroll_exp_reps rest2 = Except.ok tail2 →
       unroll_exp_reps (c2 :: rest2) = Except.ok (c2 :: tail2))) :=
  repetition_unrolling _ [] 2 "/out/e/log" [] rfl rfl rfl rfl

/-- C5: for a template whose only directive is `list` (with at least one
key-path), expansion yields exactly `min(n1..nk)` records — the value lists
zipped positionally, truncated to the shortest — and the warning sink
receives exactly one message for that template if and only if the value
lists have unequal lengths. -/
theorem list_cardinality_and_warning (c c' : Config) (s : List (String × SVal))
    (nm : String)
    (hl : c.list = some s) (hg : c.grid = none) (ha : c.ablative = none)
    (hnm : c.name = some nm)
    (hsd : set_defaults c = Except.ok c')
    (hk : flatten_dict_to_tuple_keys s ≠ []) :
    ∃ res ws, expand_experiments [c] = Except.ok (res, ws) ∧
      res.length = minLen ((flatten_dict_to_tuple_keys s).map (fun t => t.2.length)) ∧
      ((∃ t1 ∈ flatten_dict_to_tuple_keys s, ∃ t2 ∈ flatten_dict_to_tuple_keys s,
          t1.2.length ≠ t2.2.length) → ws.length = 1) ∧
      ((∀ t1 ∈ flatten_dict_to_tuple_keys s, ∀ t2 ∈ flatten_dict_to_tuple_keys s,
          t1.2.length = t2.2.length) → ws = []) := by
  rcases set_defaults_fields c c' hsd with ⟨hsg, hsl, hsa, _, _, _, hsn, _, _, _, hen1, _⟩
  have hg' : c'.grid = none := by rw [hsg, hg]
  have hl' : c'.list = some s := by rw [hsl, hl]
  have ha' : c'.ablative = none := by rw [hsa, ha]
  have hnm' : c'.name = some nm := by rw [hsn, hnm]
  rcases Option.isSome_iff_exists.mp hen1 with ⟨en, hen'⟩
  have hb : ((c'.grid).isSome && (c'.list).isSome) = false := by simp [hg']
  rw [expand_experiments_single_not_both c c' hsd hb]
  simp only [hl', Option.isSome_some, if_true]
  rw [params_combine_eq c' DKey.list IterFunc.zip s en nm
    (by simp [getDirective, hl']) hen' hnm']
  simp only [ha', Option.isSome_none, Bool.false_eq_true, if_false]
  refine ⟨_, _, by rfl, ?_, ?_, ?_⟩
  · rw [normalize_length, List.length_map, applyIter]
    rw [zipLists_length _ (by simpa using hk)]
    congr 1
    rw [List.map_map]
    rfl
  · intro hne
    have hdne : ¬(((flatten_dict_to_tuple_keys s).map
        (fun t => t.2.length)).dedup.length = 1) := by
      intro hone
      rcases (dedup_length_eq_one_iff _).mp hone with ⟨_, hall⟩
      rcases hne with ⟨t1, ht1, t2, ht2, hne12⟩
      exact hne12 (hall t1.2.length (List.mem_map_of_mem _ ht1)
        t2.2.length (List.mem_map_of_mem _ ht2))
    simp [hdne]
  · intro heq
    have hdone : (((flatten_dict_to_tuple_keys s).map
        (fun t => t.2.length)).dedup.length = 1) := by
      apply (dedup_length_eq_one_iff _).mpr
      refine ⟨by simpa using hk, ?_⟩
      intro a haa b hbb
      rcases List.mem_map.mp haa with ⟨t1, ht1, rfl⟩
      rcases List.mem_map.mp hbb with ⟨t2, ht2, rfl⟩
      exact heq t1 ht1 t2 ht2
    simp [hdone]

theorem list_cardinality_and_warning_witness :
    (let c0 : Config := { name := some "e", path := some "/p", repetitions := some 1, basic_path := some "/p", experiment_name := some "e", nested_dir := some "", list := some [("x", SVal.leaf ["1", "2"]), ("y", SVal.leaf ["5"])] };
     let s0 : List (String × SVal) := [("x", SVal.leaf ["1", "2"]), ("y", SVal.leaf ["5"])];
     ∃ res ws, expand_experiments [c0] = Except.ok (res, ws) ∧
       res.length = minLen ((flatten_dict_to_tuple_keys s0).map (fun t => t.2.length)) ∧
       ((∃ t1 ∈ flatten_dict_to_tuple_keys s0, ∃ t2 ∈ flatten_dict_to_tuple_keys s0,
           t1.2.length ≠ t2.2.length) → ws.length = 1) ∧
       ((∀ t1 ∈ flatten_dict_to_tuple_keys s0, ∀ t2 ∈ flatten_dict_to_tuple_keys s0,
           t1.2.length = t2.2.length) → ws = [])) :=
  list_cardinality_and_warning _ _ _ "e" rfl rfl rfl rfl rfl (by simp [flatten_dict_to_tuple_keys, flattenKV, flattenS])

/-- C6 (amended): every record returned by expansion has the `grid` and
`list` keys removed; the `ablative` key, by contrast, is carried through to
the output unchanged (see the counterexample). -/
theorem concrete_records_grid_list_removed (cs res : List Config) (ws : List String)
    (h : expand_experiments cs = Except.ok (res, ws)) :
    ∀ r ∈ res, r.grid = none ∧ r.list = none := by
  unfold expand_experiments at h
  cases hel : expand_loop (worklistMeasure cs + 1) cs with
  | error e => rw [hel] at h; exact absurd h (by simp)
  | ok rw2 =>
    rw [hel] at h
    simp only [Except.ok.injEq, Prod.mk.injEq] at h
    intro r hr
    rw [← h.1] at hr
    rcases normalize_mem_fields rw2.1 r hr with ⟨c2, hc2, hgg, hll, _⟩
    rcases expand_loop_mem_inv _ _ _ _ hel c2 hc2 with ⟨hg2, hl2, _⟩
    exact ⟨hgg.trans hg2, hll.trans hl2⟩

theorem concrete_records_grid_list_removed_witness :
    (let c0 : Config := { name := some "e", path := some "/p", repetitions := some 1, basic_path := some "/p", experiment_name := some "e", nested_dir := some "", grid := some [("a", SVal.leaf ["1"])] };
     ∀ r ∈ (normalize_expanded_paths [{ c0 with
         grid := none,
         params := some [("a", PVal.atom "1")],
         experiment_name := some "e__a_1",
         nested_dir := some "e" }]),
       r.grid = none ∧ r.list = none) := by
  intro c0 r hr
  refine concrete_records_grid_list_removed [c0] _ [] ?_ r hr
  rfl

/-- C6 counterexample: the claim says the `ablative` key is removed from
every concrete job record, but a template carrying an `ablative` block
expands to records (both the retained base record and the ablative variant)
that still carry the `ablative` key unchanged — the source never deletes
it. -/
theorem concrete_records_ablative_retained_counterexample :
    ((expand_experiments [{ name := some "e", path := some "/p", repetitions := some 1, basic_path := some "/p", experiment_name := some "e", nested_dir := some "", params := some [("a", PVal.atom "1")], ablative := some [("a", SVal.leaf ["2"])] }]).map
      (fun p => p.1.map (fun r => r.ablative)))
      = Except.ok [some [("a", SVal.leaf ["2"])], some [("a", SVal.leaf ["2"])]] := by
  rfl

/-- C1 (amended): for a template whose only directive is a well-formed `grid`
over key-paths with candidate-list lengths `n1..nk`, expansion yields exactly
`n1 * ... * nk` records and no warnings; the tuple of values bound in each
record's `params` tree at the grid's key-paths enumerates the full
cross-product in `itertools.product` order (the first key-path in flatten
order varying slowest); and — provided each candidate list is duplicate-free
— these tuples are pairwise distinct (with duplicated candidates the source
emits duplicate tuples, see the counterexample). -/
theorem grid_cardinality_and_order (c c' : Config) (g : List (String × SVal)) (nm : String)
    (hg : c.grid = some g) (hl : c.list = none) (ha : c.ablative = none)
    (hnm : c.name = some nm)
    (hsd : set_defaults c = Except.ok c')
    (hwf : sweepWFb g = true) :
    ∃ res, expand_experiments [c] = Except.ok (res, []) ∧
      res.length = ((flatten_dict_to_tuple_keys g).map (fun t => t.2.length)).prod ∧
      res.map (fun r => (flatten_dict_to_tuple_keys g).map
          (fun t => lookupPath ((r.params).getD []) t.1))
        = (productLists ((flatten_dict_to_tuple_keys g).map (fun t => t.2))).map
            (fun vs => vs.map (fun v => some (PVal.atom v))) ∧
      ((∀ t ∈ flatten_dict_to_tuple_keys g, t.2.Nodup) →
        (res.map (fun r => (flatten_dict_to_tuple_keys g).map
          (fun t => lookupPath ((r.params).getD []) t.1))).Nodup) := by
  rcases set_defaults_fields c c' hsd with ⟨hsg, hsl, hsa, _, _, _, hsn, _, _, _, hen1, _⟩
  have hg' : c'.grid = some g := by rw [hsg, hg]
  have hl' : c'.list = none := by rw [hsl, hl]
  have ha' : c'.ablative = none := by rw [hsa, ha]
  have hnm' : c'.name = some nm := by rw [hsn, hnm]
  rcases Option.isSome_iff_exists.mp hen1 with ⟨en, hen'⟩
  have hb : ((c'.grid).isSome && (c'.list).isSome) = false := by simp [hl']
  rw [expand_experiments_single_not_both c c' hsd hb]
  simp only [hl', hg', Option.isSome_none, Option.isSome_some, Bool.false_eq_true,
    if_false, if_true]
  rw [params_combine_eq c' DKey.grid IterFunc.product g en nm
    (by simp [getDirective, hg']) hen' hnm']
  rw [if_neg (show ¬(DKey.grid = DKey.list ∧
      (((flatten_dict_to_tuple_keys g).map (fun t => t.2.length)).dedup.length ≠ 1)) from
    fun hc => absurd hc.1 (by decide))]
  simp only [ha', Option.isSome_none, Bool.false_eq_true, if_false]
  have hextract : ∀ values ∈ productLists ((flatten_dict_to_tuple_keys g).map (fun t => t.2)),
      (flatten_dict_to_tuple_keys g).map (fun t => lookupPath
        ((List.zip ((flatten_dict_to_tuple_keys g).map (fun t => t.1)) values).foldl
          (fun d tv => insert_deep_dictionary d tv.1 (PVal.atom tv.2))
          ((c'.params).getD [])) t.1)
        = values.map (fun v => some (PVal.atom v)) := by
    intro values hvals
    have hlenv : values.length = (flatten_dict_to_tuple_keys g).length := by
      rw [productLists_mem_length _ _ hvals, List.length_map]
    have hfst : (List.zip ((flatten_dict_to_tuple_keys g).map (fun t => t.1)) values).map
        Prod.fst = (flatten_dict_to_tuple_keys g).map (fun t => t.1) := by
      apply List.map_fst_zip
      simp [hlenv]
    have hne : ∀ x ∈ List.zip ((flatten_dict_to_tuple_keys g).map (fun t => t.1)) values,
        x.1 ≠ [] := by
      intro x hx
      have hx1 : x.1 ∈ (flatten_dict_to_tuple_keys g).map (fun t => t.1) := by
        rw [← hfst]
        exact List.mem_map_of_mem _ hx
      rcases List.mem_map.mp hx1 with ⟨t, ht, hteq⟩
      rw [← hteq]
      exact flattenKV_path_ne_nil g t ht
    have hpw : List.Pairwise (fun x y => diverge x.1 y.1 = true)
        (List.zip ((flatten_dict_to_tuple_keys g).map (fun t => t.1)) values) := by
      have h1 : List.Pairwise (fun x y => diverge x y = true)
          ((List.zip ((flatten_dict_to_tuple_keys g).map (fun t => t.1)) values).map
            Prod.fst) := by
        rw [hfst]
        apply List.pairwise_map.mpr
        exact flattenKV_pairwise g hwf
      exact List.pairwise_map.mp h1
    apply List.ext_getElem
    · simp [hlenv]
    intro i hi1 hi2
    have hitd : i < (flatten_dict_to_tuple_keys g).length := by simpa using hi1
    have hiv : i < values.length := by rw [hlenv]; exact hitd
    simp only [List.getElem_map]
    have hmempair : ((flatten_dict_to_tuple_keys g)[i].1, values[i]) ∈
        List.zip ((flatten_dict_to_tuple_keys g).map (fun t => t.1)) values := by
      rw [List.mem_iff_getElem]
      refine ⟨i, by rw [List.length_zip]; simp only [List.length_map]; omega, ?_⟩
      rw [List.getElem_zip]
      simp
    have hli := lookupPath_foldl_insert
      (List.zip ((flatten_dict_to_tuple_keys g).map (fun t => t.1)) values)
      ((c'.params).getD []) hne hpw _ hmempair
    simpa using hli
  have hmapeq : (normalize_expanded_paths
      ((applyIter IterFunc.product ((flatten_dict_to_tuple_keys g).map (fun t => t.2))).map
        (fun values =>
          { delDirective c' DKey.grid with
              params := some
                ((List.zip ((flatten_dict_to_tuple_keys g).map (fun t => t.1)) values).foldl
                  (fun d tv => insert_deep_dictionary d tv.1 (PVal.atom tv.2))
                  ((c'.params).getD [])),
              experiment_name := some (en ++ (if strContainsSub en "__" then "_" else "__")
                ++ convert_param_names ((flatten_dict_to_tuple_keys g).map
                  (fun t => String.intercalate "." t.1)) values),
              nested_dir := some nm }))).map
        (fun r => (flatten_dict_to_tuple_keys g).map
          (fun t => lookupPath ((r.params).getD []) t.1))
      = (productLists ((flatten_dict_to_tuple_keys g).map (fun t => t.2))).map
          (fun vs => vs.map (fun v => some (PVal.atom v))) := by
    simp only [normalize_expanded_paths, List.map_map]
    apply List.map_congr_left
    intro values hvals
    have hx := hextract values (by simpa [applyIter] using hvals)
    simpa [Function.comp, delDirective] using hx
  refine ⟨_, by rfl, ?_, ?_, ?_⟩
  · rw [normalize_length, List.length_map, applyIter, productLists_length, List.map_map]
    rfl
  · exact hmapeq
  · intro hnd
    rw [hmapeq]
    apply List.Nodup.map
    · intro a b hab
      exact List.map_injective_iff.mpr
        (fun (x y : String) (hxy : some (PVal.atom x) = some (PVal.atom y)) => by
          simpa using hxy) hab
    · apply productLists_nodup
      intro l hll
      rcases List.mem_map.mp hll with ⟨t, ht, rfl⟩
      exact hnd t ht

theorem grid_cardinality_and_order_witness :
    (let g0 : List (String × SVal) := [("lr", SVal.leaf ["0.1", "0.01"])];
     let c0 : Config := { name := some "exp", path := some "/out", repetitions := some 2, basic_path := some "/out", experiment_name := some "exp", nested_dir := some "", grid := some [("lr", SVal.leaf ["0.1", "0.01"])] };
     ∃ res, expand_experiments [c0] = Except.ok (res, []) ∧
       res.length = ((flatten_dict_to_tuple_keys g0).map (fun t => t.2.length)).prod ∧
       res.map (fun r => (flatten_dict_to_tuple_keys g0).map
           (fun t => lookupPath ((r.params).getD []) t.1))
         = (productLists ((flatten_dict_to_tuple_keys g0).map (fun t => t.2))).map
             (fun vs => vs.map (fun v => some (PVal.atom v))) ∧
       ((∀ t ∈ flatten_dict_to_tuple_keys g0, t.2.Nodup) →
         (res.map (fun r => (flatten_dict_to_tuple_keys g0).map
           (fun t => lookupPath ((r.params).getD []) t.1))).Nodup)) :=
  grid_cardinality_and_order _ _ _ "exp" rfl rfl rfl rfl rfl rfl

/-- C1 counterexample: the claim asserts that each record binds a distinct
tuple of values, but a grid whose candidate list repeats a value (here
`a: ["1", "1"]`) expands to two records binding the identical tuple — the
source iterates `itertools.product` over the raw candidate lists without
deduplication. -/
theorem grid_distinct_tuples_counterexample :
    ((expand_experiments [{ name := some "e", path := some "/p", repetitions := some 1, basic_path := some "/p", experiment_name := some "e", nested_dir := some "", grid := some [("a", SVal.leaf ["1", "1"])] }]).map
      (fun p => p.1.map (fun r => lookupPath ((r.params).getD []) ["a"])))
      = Except.ok [some (PVal.atom "1"), some (PVal.atom "1")] := by
  rfl

theorem expand_loop_all_grid (gsweep : List (String × SVal)) (nm : String) :
    ∀ (kids : List Config) (f : Nat),
    (∀ kid ∈ kids, (kid.basic_path).isSome = true ∧ (kid.experiment_name).isSome = true ∧
      (kid.nested_dir).isSome = true ∧ kid.name = some nm ∧
      kid.list = none ∧ kid.ablative = none ∧ kid.grid = some gsweep) →
    kids.length < f →
    ∃ out, expand_loop f kids = Except.ok (out, []) ∧
      out.length = kids.length *
        (productLists ((flatten_dict_to_tuple_keys gsweep).map (fun t => t.2))).length := by
  intro kids
  induction kids with
  | nil =>
    intro f _ hf
    exact ⟨[], expand_loop_nil_of_pos f (by omega), by simp⟩
  | cons kid rest ih =>
    intro f hall hf
    cases f with
    | zero => omega
    | succ f2 =>
      rcases hall kid (List.mem_cons_self _ _) with
        ⟨hbp, hen, hnd, hnm, hlnone, hanone, hgsome⟩
      have hsd : set_defaults kid = Except.ok kid := set_defaults_of_complete kid hbp hen hnd
      have hb : ((kid.grid).isSome && (kid.list).isSome) = false := by simp [hlnone]
      rw [expand_loop_cons_not_both f2 kid kid rest hsd hb]
      rcases Option.isSome_iff_exists.mp hen with ⟨en, hen'⟩
      simp only [hlnone, hgsome, Option.isSome_none, Option.isSome_some,
        Bool.false_eq_true, if_false, if_true]
      rw [params_combine_eq kid DKey.grid IterFunc.product gsweep en nm
        (by simp [getDirective, hgsome]) hen' hnm]
      rw [if_neg (show ¬(DKey.grid = DKey.list ∧
          (((flatten_dict_to_tuple_keys gsweep).map (fun t => t.2.length)).dedup.length ≠ 1))
        from fun hc => absurd hc.1 (by decide))]
      simp only [hanone, Option.isSome_none, Bool.false_eq_true, if_false]
      rcases ih f2 (fun x hx => hall x (List.mem_cons_of_mem _ hx))
        (by simp only [List.length_cons] at hf; omega) with ⟨out2, hout2, hlen2⟩
      rw [hout2]
      refine ⟨_, rfl, ?_⟩
      simp only [List.length_append, List.length_map, hlen2, List.length_cons]
      simp [applyIter, Nat.succ_mul, Nat.add_comm]
theorem expand_experiments_single_both_ok (c c' : Config)
    (hsd : set_defaults c = Except.ok c')
    (hb : ((c'.grid).isSome && (c'.list).isSome) = true)
    (kids : List Config) (ws0 : List String) (out : List Config) (ws1 : List String)
    (hpc : params_combine c' (some DKey.list) (some IterFunc.zip) = Except.ok (kids, ws0))
    (hloop : expand_loop (configWeight c) kids = Except.ok (out, ws1)) :
    expand_experiments [c] = Except.ok (normalize_expanded_paths out, ws0 ++ ws1) := by
  rw [expand_experiments_single_both c c' hsd hb, hpc]
  simp [hloop]

/-- C2 (amended): for a template carrying both a `grid` and a `list`
directive (and no `ablative` block — with `ablative` present the total grows
further, see the counterexample), the driver resolves the `list` directive
first by positional pairing, producing one child per `zip` tuple with `list`
deleted and `grid` kept, re-enqueues those children, and each is then
expanded as a grid-only template; the full expansion therefore yields exactly
`n * g` records, where `n` is the number of `zip` tuples of the `list` block
and `g` the cross-product cardinality of the `grid` block. -/
theorem combined_grid_list_cardinality (c c' : Config) (g s : List (String × SVal))
    (nm : String)
    (hg : c.grid = some g) (hl : c.list = some s) (ha : c.ablative = none)
    (hnm : c.name = some nm) (hsd : set_defaults c = Except.ok c') :
    ∃ kids ws0 res ws,
      params_combine c' (some DKey.list) (some IterFunc.zip) = Except.ok (kids, ws0) ∧
      kids.length = (zipLists ((flatten_dict_to_tuple_keys s).map (fun t => t.2))).length ∧
      (∀ kid ∈ kids, kid.list = none ∧ kid.grid = some g ∧ kid.ablative = none) ∧
      expand_experiments [c] = Except.ok (res, ws) ∧
      res.length = (zipLists ((flatten_dict_to_tuple_keys s).map (fun t => t.2))).length *
        (productLists ((flatten_dict_to_tuple_keys g).map (fun t => t.2))).length ∧
      (productLists ((flatten_dict_to_tuple_keys g).map (fun t => t.2))).length
        = ((flatten_dict_to_tuple_keys g).map (fun t => t.2.length)).prod := by
  rcases set_defaults_fields c c' hsd with
    ⟨hsg, hsl, hsa, _, _, _, hsn, _, _, hbp1, hen1, hnd1⟩
  have hg' : c'.grid = some g := by rw [hsg, hg]
  have hl' : c'.list = some s := by rw [hsl, hl]
  have ha' : c'.ablative = none := by rw [hsa, ha]
  have hnm' : c'.name = some nm := by rw [hsn, hnm]
  rcases Option.isSome_iff_exists.mp hen1 with ⟨en, hen'⟩
  have hb : ((c'.grid).isSome && (c'.list).isSome) = true := by simp [hg', hl']
  have hpc := params_combine_eq c' DKey.list IterFunc.zip s en nm
    (by simp [getDirective, hl']) hen' hnm'
  obtain ⟨kids, ws0, hpc2⟩ : ∃ kids ws0,
      params_combine c' (some DKey.list) (some IterFunc.zip) = Except.ok (kids, ws0) :=
    ⟨_, _, hpc⟩
  have hkeq := hpc2.symm.trans hpc
  have hkids_len : kids.length
      = (zipLists ((flatten_dict_to_tuple_keys s).map (fun t => t.2))).length := by
    have hcongr := congrArg (fun x => match x with
      | Except.ok (p : List Config × List String) => p.1.length
      | Except.error _ => 0) hkeq
    simpa [applyIter] using hcongr
  have hmemf := params_combine_some_mem_fields c' DKey.list IterFunc.zip kids ws0 hpc2
  have hkidmem : ∀ kid ∈ kids, (kid.basic_path).isSome = true ∧
      (kid.experiment_name).isSome = true ∧ (kid.nested_dir).isSome = true ∧
      kid.name = some nm ∧ kid.list = none ∧ kid.ablative = none ∧
      kid.grid = some g := by
    intro kid hkid
    rcases hmemf kid hkid with ⟨hg1, hl1, ha1, _, _, hn1, hbp2, hes2, hnd2⟩
    refine ⟨?_, hes2, hnd2, ?_, ?_, ?_, ?_⟩
    · rw [hbp2]; exact hbp1
    · rw [hn1, hnm']
    · rw [hl1]; simp [delDirective]
    · rw [ha1, ha']
    · rw [hg1]; simp [delDirective, hg']
  have hcw : configWeight c = 2 + (zipLists ((flatten_dict_to_tuple_keys s).map
      (fun t => t.2))).length := by
    simp [configWeight, hg, hl]
  rcases expand_loop_all_grid g nm kids (configWeight c) hkidmem
    (by rw [hcw]; omega) with ⟨out, hout, hlen⟩
  have hfinal := expand_experiments_single_both_ok c c' hsd hb kids ws0 out [] hpc2 hout
  refine ⟨kids, ws0, _, _, hpc2, hkids_len, ?_, hfinal, ?_,
    by rw [productLists_length, List.map_map]; rfl⟩
  · intro kid hkid
    rcases hkidmem kid hkid with ⟨_, _, _, _, h5, h6, h7⟩
    exact ⟨h5, h7, h6⟩
  · rw [normalize_length, hlen, hkids_len]

theorem combined_grid_list_cardinality_witness :
    (let g0 : List (String × SVal) := [("g1", SVal.leaf ["1", "2"])];
     let s0 : List (String × SVal) := [("l1", SVal.leaf ["a", "b", "c"])];
     let c0 : Config := { name := some "e", path := some "/p", repetitions := some 1, basic_path := some "/p", experiment_name := some "e", nested_dir := some "", grid := some [("g1", SVal.leaf ["1", "2"])], list := some [("l1", SVal.leaf ["a", "b", "c"])] };
     ∃ kids ws0 res ws,
       params_combine c0 (some DKey.list) (some IterFunc.zip) = Except.ok (kids, ws0) ∧
       kids.length = (zipLists ((flatten_dict_to_tuple_keys s0).map (fun t => t.2))).length ∧
       (∀ kid ∈ kids, kid.list = none ∧ kid.grid = some g0 ∧ kid.ablative = none) ∧
       expand_experiments [c0] = Except.ok (res, ws) ∧
       res.length = (zipLists ((flatten_dict_to_tuple_keys s0).map (fun t => t.2))).length *
         (productLists ((flatten_dict_to_tuple_keys g0).map (fun t => t.2))).length ∧
       (productLists ((flatten_dict_to_tuple_keys g0).map (fun t => t.2))).length
         = ((flatten_dict_to_tuple_keys g0).map (fun t => t.2.length)).prod) :=
  combined_grid_list_cardinality _ _ _ _ "e" rfl rfl rfl rfl rfl

/-- C2 counterexample: the claim as stated covers every template containing
both `grid` and `list`, but a template that additionally carries an
`ablative` block expands to more than `n * g` records: here `n = 1` zip
tuple and `g = 2` grid combinations, yet expansion yields 4 records (each of
the `n * g = 2` base records is retained alongside one ablative variant). -/
theorem combined_grid_list_counterexample :
    ((expand_experiments [{ name := some "e", path := some "/p", repetitions := some 1, basic_path := some "/p", experiment_name := some "e", nested_dir := some "", grid := some [("g1", SVal.leaf ["1", "2"])], list := some [("l1", SVal.leaf ["5"])], ablative := some [("a", SVal.leaf ["9"])] }]).map
      (fun p => p.1.length))
      = Except.ok 4 := by
  rfl

theorem params_combine_routed_mem (config : Config) (key : Option DKey)
    (itf : Option IterFunc) (recs : List Config) (ws : List String)
    (h : params_combine config key itf = Except.ok (recs, ws)) :
    ∀ x ∈ recs, x.ablative = config.ablative ∧ x.name = config.name ∧
      ((x.experiment_name).isSome = true ∨ x = config) := by
  cases itf with
  | none =>
    rw [params_combine_no_iter] at h
    simp only [Except.ok.injEq, Prod.mk.injEq] at h
    intro x hx
    rw [← h.1] at hx
    rcases List.mem_singleton.mp hx with rfl
    exact ⟨rfl, rfl, Or.inr rfl⟩
  | some itf2 =>
    cases key with
    | none => exact absurd h (by simp [params_combine])
    | some k =>
      intro x hx
      rcases params_combine_some_mem_fields config k itf2 recs ws h x hx with
        ⟨_, _, ha1, _, _, hn1, _, hes1, _⟩
      exact ⟨ha1, hn1, Or.inl hes1⟩

theorem expand_experiments_single_not_both_ok (c c' : Config)
    (hsd : set_defaults c = Except.ok c')
    (hb : ((c'.grid).isSome && (c'.list).isSome) = false)
    (base : List Config) (ws : List String)
    (hpc : params_combine c'
      (if (c'.list).isSome = true then (some DKey.list, some IterFunc.zip)
       else if (c'.grid).isSome = true then (some DKey.grid, some IterFunc.product)
       else (none, none)).1
      (if (c'.list).isSome = true then (some DKey.list, some IterFunc.zip)
       else if (c'.grid).isSome = true then (some DKey.grid, some IterFunc.product)
       else (none, none)).2 = Except.ok (base, ws))
    (expansion : List Config)
    (hexp : (if (c'.ablative).isSome = true then
              match ablative_expand base with
              | Except.error e => Except.error e
              | Except.ok more => Except.ok (base ++ more)
            else Except.ok base) = Except.ok expansion) :
    expand_experiments [c] = Except.ok (normalize_expanded_paths expansion, ws) := by
  rw [expand_experiments_single_not_both c c' hsd hb, hpc]
  simp [hexp]

/-- C3 (amended): for a template carrying an `ablative` directive (and not
both `grid` and `list` at once), if the grid/list stage (or the identity
case) produced `b` base records, the expansion result contains exactly
`b + b*(m1+...+mj)` records: the `b` base records are retained as a prefix,
and each base record yields one additional variant per (ablative key-path,
candidate value) pair whose `params` tree is the base record's with exactly
that single value inserted at that key-path — so the variant binds that value
at that key-path and agrees with the base at every diverging key-path; it
differs from its base in at most that one key-path, and in none at all when
the base already bound that value (see the counterexample). -/
theorem ablative_additivity (c c' : Config) (a : List (String × SVal)) (nm : String)
    (ha : c.ablative = some a)
    (hgl : ((c.grid).isSome && (c.list).isSome) = false)
    (hnm : c.name = some nm) (hsd : set_defaults c = Except.ok c') :
    ∃ base abl ws,
      params_combine c'
        (if (c'.list).isSome = true then (some DKey.list, some IterFunc.zip)
         else if (c'.grid).isSome = true then (some DKey.grid, some IterFunc.product)
         else (none, none)).1
        (if (c'.list).isSome = true then (some DKey.list, some IterFunc.zip)
         else if (c'.grid).isSome = true then (some DKey.grid, some IterFunc.product)
         else (none, none)).2 = Except.ok (base, ws) ∧
      ablative_expand base = Except.ok abl ∧
      expand_experiments [c] = Except.ok (normalize_expanded_paths (base ++ abl), ws) ∧
      abl.length = base.length *
        ((flatten_dict_to_tuple_keys a).map (fun t => t.2.length)).sum ∧
      (normalize_expanded_paths (base ++ abl)).length = base.length + base.length *
        ((flatten_dict_to_tuple_keys a).map (fun t => t.2.length)).sum ∧
      (∀ v ∈ abl, ∃ b ∈ base, ∃ t ∈ flatten_dict_to_tuple_keys a, ∃ val ∈ t.2,
        v.params = some (insert_deep_dictionary ((b.params).getD []) t.1 (PVal.atom val)) ∧
        lookupPath ((v.params).getD []) t.1 = some (PVal.atom val) ∧
        (∀ q, diverge t.1 q = true →
          lookupPath ((v.params).getD []) q = lookupPath ((b.params).getD []) q)) := by
  rcases set_defaults_fields c c' hsd with
    ⟨hsg, hsl, hsa, _, _, _, hsn, _, _, hbp1, hen1, hnd1⟩
  have ha' : c'.ablative = some a := by rw [hsa, ha]
  have hnm' : c'.name = some nm := by rw [hsn, hnm]
  rcases Option.isSome_iff_exists.mp hen1 with ⟨en, hen'⟩
  have hb : ((c'.grid).isSome && (c'.list).isSome) = false := by rw [hsg, hsl]; exact hgl
  have hexists : ∃ base ws, params_combine c'
      (if (c'.list).isSome = true then (some DKey.list, some IterFunc.zip)
       else if (c'.grid).isSome = true then (some DKey.grid, some IterFunc.product)
       else (none, none)).1
      (if (c'.list).isSome = true then (some DKey.list, some IterFunc.zip)
       else if (c'.grid).isSome = true then (some DKey.grid, some IterFunc.product)
       else (none, none)).2 = Except.ok (base, ws) := by
    by_cases hcl : (c'.list).isSome = true
    · rcases Option.isSome_iff_exists.mp hcl with ⟨s, hs⟩
      rw [if_pos hcl]
      exact ⟨_, _, params_combine_eq c' DKey.list IterFunc.zip s en nm
        (by simp [getDirective, hs]) hen' hnm'⟩
    · by_cases hcg : (c'.grid).isSome = true
      · rcases Option.isSome_iff_exists.mp hcg with ⟨g2, hg2⟩
        rw [if_neg hcl, if_pos hcg]
        exact ⟨_, _, params_combine_eq c' DKey.grid IterFunc.product g2 en nm
          (by simp [getDirective, hg2]) hen' hnm'⟩
      · rw [if_neg hcl, if_neg hcg]
        exact ⟨[c'], [], params_combine_no_iter c' none⟩
  rcases hexists with ⟨base, ws, hpcr⟩
  have hbasemem := params_combine_routed_mem c' _ _ base ws hpcr
  have hbasehyps : ∀ b ∈ base, (b.ablative).isSome = true ∧
      (b.experiment_name).isSome = true ∧ (b.name).isSome = true := by
    intro b hbm
    rcases hbasemem b hbm with ⟨ha1, hn1, hen2⟩
    refine ⟨by rw [ha1, ha']; rfl, ?_, by rw [hn1, hnm']; rfl⟩
    rcases hen2 with hen2 | rfl
    · exact hen2
    · exact hen1
  rcases ablative_expand_spec base hbasehyps with ⟨abl, habl, hlen, hmem⟩
  have hab' : (c'.ablative).isSome = true := by rw [ha']; rfl
  have hexp : (if (c'.ablative).isSome = true then
      match ablative_expand base with
      | Except.error e => Except.error e
      | Except.ok more => Except.ok (base ++ more)
    else Except.ok base) = Except.ok (base ++ abl) := by
    rw [if_pos hab', habl]
  have hfinal := expand_experiments_single_not_both_ok c c' hsd hb base ws hpcr _ hexp
  have hsum : abl.length = base.length *
      ((flatten_dict_to_tuple_keys a).map (fun t => t.2.length)).sum := by
    rw [hlen]
    have hconst : base.map (fun b => ((flatten_dict_to_tuple_keys
        ((b.ablative).getD [])).map (fun t => t.2.length)).sum)
        = base.map (fun _ => ((flatten_dict_to_tuple_keys a).map
          (fun t => t.2.length)).sum) := by
      apply List.map_congr_left
      intro b hbm
      rcases hbasemem b hbm with ⟨ha1, _, _⟩
      rw [ha1, ha']
      rfl
    rw [hconst, sum_map_const]
  refine ⟨base, abl, ws, hpcr, habl, hfinal, hsum, ?_, ?_⟩
  · rw [normalize_length, List.length_append, hsum]
  · intro v hv
    rcases hmem v hv with ⟨b, hbm, t, ht, val, hval, hvp, _⟩
    rcases hbasemem b hbm with ⟨ha1, _, _⟩
    have ht' : t ∈ flatten_dict_to_tuple_keys a := by
      rw [ha1, ha'] at ht
      exact ht
    have htne : t.1 ≠ [] := flattenKV_path_ne_nil a t ht'
    refine ⟨b, hbm, t, ht', val, hval, hvp, ?_, ?_⟩
    · rw [hvp]
      simp only [Option.getD_some]
      exact lookupPath_insert_same t.1 _ _ htne
    · intro q hq
      rw [hvp]
      simp only [Option.getD_some]
      exact lookupPath_insert_of_diverge t.1 q _ val hq

theorem ablative_additivity_witness :
    (let a0 : List (String × SVal) := [("a", SVal.leaf ["9"]), ("b", SVal.leaf ["8", "7"])];
     let c0 : Config := { name := some "e", path := some "/p", repetitions := some 1, basic_path := some "/p", experiment_name := some "e", nested_dir := some "", params := some [("a", PVal.atom "1"), ("b", PVal.atom "2")], ablative := some [("a", SVal.leaf ["9"]), ("b", SVal.leaf ["8", "7"])] };
     ∃ base abl ws,
       params_combine c0
         (if (c0.list).isSome = true then (some DKey.list, some IterFunc.zip)
          else if (c0.grid).isSome = true then (some DKey.grid, some IterFunc.product)
          else (none, none)).1
         (if (c0.list).isSome = true then (some DKey.list, some IterFunc.zip)
          else if (c0.grid).isSome = true then (some DKey.grid, some IterFunc.product)
          else (none, none)).2 = Except.ok (base, ws) ∧
       ablative_expand base = Except.ok abl ∧
       expand_experiments [c0] = Except.ok (normalize_expanded_paths (base ++ abl), ws) ∧
       abl.length = base.length *
         ((flatten_dict_to_tuple_keys a0).map (fun t => t.2.length)).sum ∧
       (normalize_expanded_paths (base ++ abl)).length = base.length + base.length *
         ((flatten_dict_to_tuple_keys a0).map (fun t => t.2.length)).sum ∧
       (∀ v ∈ abl, ∃ b ∈ base, ∃ t ∈ flatten_dict_to_tuple_keys a0, ∃ val ∈ t.2,
         v.params = some (insert_deep_dictionary ((b.params).getD []) t.1 (PVal.atom val)) ∧
         lookupPath ((v.params).getD []) t.1 = some (PVal.atom val) ∧
         (∀ q, diverge t.1 q = true →
           lookupPath ((v.params).getD []) q = lookupPath ((b.params).getD []) q))) :=
  ablative_additivity _ _ _ "e" rfl rfl rfl rfl

/-- C3 counterexample: the claim requires every ablative variant's `params`
to differ from its base record in exactly one key-path, but when the
ablative candidate equals the value the base already binds (here the base
has `a = 1` and the ablative block proposes `a: [1]`), the variant's
`params` tree is identical to the base record's — it differs in zero
key-paths. -/
theorem ablative_exactly_one_counterexample :
    ((expand_experiments [{ name := some "e", path := some "/p", repetitions := some 1, basic_path := some "/p", experiment_name := some "e", nested_dir := some "", params := some [("a", PVal.atom "1")], ablative := some [("a", SVal.leaf ["1"])] }]).map
      (fun p => p.1.map (fun r => (r.params).getD [])))
      = Except.ok [[("a", PVal.atom "1")], [("a", PVal.atom "1")]] := by
  rfl

/-- C8 (amended): a template missing `path` or `name` makes the expansion
phase itself fail immediately with a KeyError, so the top-level call
produces no output; a template missing `repetitions`, however, passes the
expansion phase untouched (see the counterexample) and the fatal KeyError
only surfaces in the repetition-unrolling phase — the top-level
`unfold_exps` still produces no output whenever the expansion yielded at
least one record. -/
theorem missing_required_field_failures :
    (∀ (c : Config) (rest : List Config), c.basic_path = none → c.path = none →
      expand_experiments (c :: rest) = Except.error "KeyError: path" ∧
      unfold_exps (c :: rest) = Except.error "KeyError: path") ∧
    (∀ (c : Config) (rest : List Config) (p : String), c.basic_path = none →
      c.path = some p → c.experiment_name = none → c.name = none →
      expand_experiments (c :: rest) = Except.error "KeyError: name" ∧
      unfold_exps (c :: rest) = Except.error "KeyError: name") ∧
    (∀ (cs res : List Config) (ws : List String),
      (∀ c ∈ cs, c.repetitions = none ∧ c.rep_idx = none) →
      expand_experiments cs = Except.ok (res, ws) → res ≠ [] →
      unfold_exps cs = Except.error "KeyError: repetitions") := by
  refine ⟨?_, ?_, ?_⟩
  · intro c rest h1 h2
    have hsd : set_defaults c = Except.error "KeyError: path" := by
      simp [set_defaults, h1, h2]
    have hexp : expand_experiments (c :: rest) = Except.error "KeyError: path" := by
      unfold expand_experiments
      simp [expand_loop, hsd]
    refine ⟨hexp, ?_⟩
    unfold unfold_exps
    rw [hexp]
  · intro c rest p h1 h2 h3 h4
    have hsd : set_defaults c = Except.error "KeyError: name" := by
      simp [set_defaults, h1, h2, h3, h4]
    have hexp : expand_experiments (c :: rest) = Except.error "KeyError: name" := by
      unfold expand_experiments
      simp [expand_loop, hsd]
    refine ⟨hexp, ?_⟩
    unfold unfold_exps
    rw [hexp]
  · intro cs res ws hall h hne
    have hr : ∀ r ∈ res, r.repetitions = none ∧ r.rep_idx = none := by
      intro r hrm
      unfold expand_experiments at h
      cases hel : expand_loop (worklistMeasure cs + 1) cs with
      | error e => rw [hel] at h; exact absurd h (by simp)
      | ok rw2 =>
        rw [hel] at h
        simp only [Except.ok.injEq, Prod.mk.injEq] at h
        rw [← h.1] at hrm
        rcases normalize_mem_fields rw2.1 r hrm with
          ⟨c2, hc2, _, _, _, _, hrr, hri, _, _, _, _⟩
        rcases expand_loop_mem_inv _ _ _ _ hel c2 hc2 with ⟨_, _, c3, hc3, hr1, hr2⟩
        rcases hall c3 hc3 with ⟨hc3r, hc3i⟩
        exact ⟨by rw [hrr, hr1, hc3r], by rw [hri, hr2, hc3i]⟩
    unfold unfold_exps
    rw [h]
    cases res with
    | nil => exact absurd rfl hne
    | cons r rest2 =>
      rcases hr r (List.mem_cons_self _ _) with ⟨hrr, hrid⟩
      have hunroll : unroll_exp_reps (r :: rest2) = Except.error "KeyError: repetitions" := by
        simp [unroll_exp_reps, hrid, hrr]
      simp [hunroll]

theorem missing_required_field_failures_witness :
    (expand_experiments [({ name := some "e" } : Config)] = Except.error "KeyError: path" ∧
     unfold_exps [({ name := some "e" } : Config)] = Except.error "KeyError: path") ∧
    (expand_experiments [({ path := some "/p" } : Config)] = Except.error "KeyError: name" ∧
     unfold_exps [({ path := some "/p" } : Config)] = Except.error "KeyError: name") ∧
    unfold_exps [({ name := some "e", path := some "/p" } : Config)]
      = Except.error "KeyError: repetitions" :=
  ⟨missing_required_field_failures.1 _ [] rfl rfl,
   missing_required_field_failures.2.1 _ [] "/p" rfl rfl rfl rfl,
   missing_required_field_failures.2.2 [{ name := some "e", path := some "/p" }]
     (normalize_expanded_paths [{ name := some "e", path := some "/p", basic_path := some "/p", experiment_name := some "e", nested_dir := some "" }]) []
     (by intro c hc
         rcases List.mem_singleton.mp hc with rfl
         exact ⟨rfl, rfl⟩)
     rfl
     (by simp [normalize_expanded_paths])⟩

/-- C8 counterexample: a template missing only `repetitions` is not rejected
by the expansion phase at all — `expand_experiments` succeeds and returns one
record — contradicting the claim that the fatal error is surfaced
immediately rather than deferred; the error only arises later, in
`unroll_exp_reps`, through the top-level `unfold_exps`. -/
theorem missing_repetitions_deferred_counterexample :
    ((expand_experiments [({ name := some "e", path := some "/p" } : Config)]).map
      (fun p => p.1.length)) = Except.ok 1 ∧
    unfold_exps [({ name := some "e", path := some "/p" } : Config)]
      = Except.error "KeyError: repetitions" :=
  ⟨rfl, rfl⟩

/-
Heap-frame lemmas: the heap-level pipeline never modifies the caller's
cells.
-/

theorem allocValues_heap : ∀ (vs : List Config) (h : List Config),
    (allocValues h vs).1 = h ++ vs := by
  intro vs
  induction vs with
  | nil => intro h; simp [allocValues]
  | cons v more ih =>
    intro h
    simp [allocValues, ih]

theorem allocValues_refs_ge : ∀ (vs : List Config) (h : List Config) (r : Nat),
    r ∈ (allocValues h vs).2 → h.length ≤ r := by
  intro vs
  induction vs with
  | nil => intro h r hr; simp [allocValues] at hr
  | cons v more ih =>
    intro h r hr
    simp only [allocValues] at hr
    rcases List.mem_cons.mp hr with rfl | hr
    · exact Nat.le_refl _
    · have := ih (h ++ [v]) r hr
      simp only [List.length_append, List.length_cons, List.length_nil] at this
      omega

theorem getD_append_left (h vs : List Config) (i : Nat) (hi : i < h.length) (d : Config) :
    (h ++ vs).getD i d = h.getD i d := by
  simp [List.getD_eq_getElem?_getD, List.getElem?_append_left hi]

theorem getD_set_ne (h : List Config) (r i : Nat) (v d : Config) (hne : i ≠ r) :
    (h.set r v).getD i d = h.getD i d := by
  simp [List.getD_eq_getElem?_getD, List.getElem?_set_ne (Ne.symm hne)]

theorem set_defaults_st_frame (h : List Config) (r : Nat) :
    (∀ i, i ≠ r → ∀ d, ((set_defaults_st h r).1).getD i d = h.getD i d) ∧
    h.length ≤ ((set_defaults_st h r).1).length := by
  unfold set_defaults_st
  split
  · exact ⟨fun i _ d => rfl, Nat.le_refl _⟩
  · refine ⟨fun i hi d => getD_set_ne h r i _ d hi, ?_⟩
    simp

theorem params_combine_st_frame (h : List Config) (r : Nat) (key : Option DKey)
    (itf : Option IterFunc) :
    (∀ i, i < h.length → ∀ d, ((params_combine_st h r key itf).1).getD i d = h.getD i d) ∧
    h.length ≤ ((params_combine_st h r key itf).1).length ∧
    (∀ refs ws, (params_combine_st h r key itf).2 = Except.ok (refs, ws) →
      ∀ ref ∈ refs, h.length ≤ ref) := by
  unfold params_combine_st
  split
  · exact ⟨fun i _ d => rfl, Nat.le_refl _, fun refs ws hok => by simp at hok⟩
  · rename_i rw2 hpure
    refine ⟨?_, ?_, ?_⟩
    · intro i hi d
      rw [allocValues_heap]
      exact getD_append_left h _ i hi d
    · rw [allocValues_heap]
      simp
    · intro refs ws hok ref href
      simp only [Except.ok.injEq, Prod.mk.injEq] at hok
      rw [← hok.1] at href
      exact allocValues_refs_ge rw2.1 h ref href

theorem ablative_expand_st_frame (h : List Config) (rs : List Nat) :
    (∀ i, i < h.length → ∀ d, ((ablative_expand_st h rs).1).getD i d = h.getD i d) ∧
    h.length ≤ ((ablative_expand_st h rs).1).length := by
  unfold ablative_expand_st
  split
  · exact ⟨fun i _ d => rfl, Nat.le_refl _⟩
  · refine ⟨?_, ?_⟩
    · intro i hi d
      rw [allocValues_heap]
      exact getD_append_left h _ i hi d
    · rw [allocValues_heap]
      simp

theorem normalize_st_frame (h : List Config) (rs : List Nat) :
    (∀ i, i < h.length → ∀ d, ((normalize_st h rs).1).getD i d = h.getD i d) ∧
    h.length ≤ ((normalize_st h rs).1).length := by
  unfold normalize_st
  refine ⟨?_, ?_⟩
  · intro i hi d
    rw [allocValues_heap]
    exact getD_append_left h _ i hi d
  · rw [allocValues_heap]
    simp

theorem deepcopyRefs_heap (h : List Config) (rs : List Nat) :
    (deepcopyRefs h rs).1 = h ++ rs.map (fun r => h.getD r emptyConfig) := by
  unfold deepcopyRefs
  exact allocValues_heap _ h

theorem deepcopyRefs_refs_ge (h : List Config) (rs : List Nat) (r : Nat)
    (hr : r ∈ (deepcopyRefs h rs).2) : h.length ≤ r := by
  unfold deepcopyRefs at hr
  exact allocValues_refs_ge _ h r hr

theorem step_combine_st_frame (h : List Config) (r : Nat) :
    (∀ i, i < h.length → ∀ d, ((step_combine_st h r).1).getD i d = h.getD i d) ∧
    h.length ≤ ((step_combine_st h r).1).length ∧
    (∀ refs ws, (step_combine_st h r).2 = Except.ok (refs, ws) →
      ∀ ref ∈ refs, h.length ≤ ref) := by
  unfold step_combine_st
  exact params_combine_st_frame h r _ _

theorem abl_step_st_frame (h : List Config) (b : Bool) (ew : List Nat × List String) :
    (∀ i, i < h.length → ∀ d, ((abl_step_st h b ew).1).getD i d = h.getD i d) ∧
    h.length ≤ ((abl_step_st h b ew).1).length := by
  rcases ablative_expand_st_frame h ew.1 with ⟨haef, hael⟩
  have h1 : (abl_step_st h b ew).1 = h ∨
      (abl_step_st h b ew).1 = (ablative_expand_st h ew.1).1 := by
    simp only [abl_step_st]
    cases b
    · simp
    · cases (ablative_expand_st h ew.1).2 <;> simp
  rcases h1 with h1 | h1
  · rw [h1]
    exact ⟨fun i _ d => rfl, Nat.le_refl _⟩
  · rw [h1]
    exact ⟨haef, hael⟩

theorem expand_loop_st_frame : ∀ (fuel : Nat) (h : List Config) (work : List Nat) (n : Nat),
    n ≤ h.length → (∀ r ∈ work, n ≤ r) →
    (∀ i, i < n → ∀ d, ((expand_loop_st fuel h work).1).getD i d = h.getD i d) ∧
    h.length ≤ ((expand_loop_st fuel h work).1).length := by
  intro fuel
  induction fuel with
  | zero =>
    intro h work n hn hw
    exact ⟨fun i _ d => rfl, Nat.le_refl _⟩
  | succ f ih =>
    intro h work n hn hw
    cases work with
    | nil => exact ⟨fun i _ d => rfl, Nat.le_refl _⟩
    | cons r rest =>
      have hrn : n ≤ r := hw r (List.mem_cons_self _ _)
      have hrest : ∀ r2 ∈ rest, n ≤ r2 := fun r2 hr2 => hw r2 (List.mem_cons_of_mem _ hr2)
      rcases set_defaults_st_frame h r with ⟨hsdf, hsdl⟩
      simp only [expand_loop_st]
      split
      · exact ⟨fun i hi d => hsdf i (by omega) d, hsdl⟩
      · split
        · rcases params_combine_st_frame (set_defaults_st h r).1 r (some DKey.list)
            (some IterFunc.zip) with ⟨hpcf, hpcl, hpcr⟩
          split
          · refine ⟨fun i hi d => ?_, le_trans hsdl hpcl⟩
            rw [hpcf i (by omega) d]
            exact hsdf i (by omega) d
          · rename_i kw hkw
            have hwork2 : ∀ r2 ∈ rest ++ kw.1, n ≤ r2 := by
              intro r2 hr2
              rcases List.mem_append.mp hr2 with hr2 | hr2
              · exact hrest r2 hr2
              · have := hpcr kw.1 kw.2 (by rw [hkw]) r2 hr2
                omega
            rcases ih (params_combine_st (set_defaults_st h r).1 r (some DKey.list)
                (some IterFunc.zip)).1 (rest ++ kw.1) n (by omega) hwork2 with ⟨hrf, hrl⟩
            split
            all_goals
              refine ⟨fun i hi d => ?_, le_trans hsdl (le_trans hpcl hrl)⟩
              rw [hrf i hi d, hpcf i (by omega) d]
              exact hsdf i (by omega) d
        · rcases step_combine_st_frame (set_defaults_st h r).1 r with ⟨hpcf, hpcl, hpcr⟩
          split
          · refine ⟨fun i hi d => ?_, le_trans hsdl hpcl⟩
            rw [hpcf i (by omega) d]
            exact hsdf i (by omega) d
          · rename_i ew hew
            rcases abl_step_st_frame (step_combine_st (set_defaults_st h r).1 r).1
                ((((set_defaults_st h r).1.getD r emptyConfig).ablative).isSome) ew
              with ⟨habf, habl⟩
            split
            · refine ⟨fun i hi d => ?_, le_trans hsdl (le_trans hpcl habl)⟩
              rw [habf i (by omega) d, hpcf i (by omega) d]
              exact hsdf i (by omega) d
            · rename_i expansion hab2
              rcases ih (abl_step_st (step_combine_st (set_defaults_st h r).1 r).1
                  ((((set_defaults_st h r).1.getD r emptyConfig).ablative).isSome) ew).1
                  rest n (by omega) hrest with ⟨hrf, hrl⟩
              split
              all_goals
                refine ⟨fun i hi d => ?_,
                  le_trans hsdl (le_trans hpcl (le_trans habl hrl))⟩
                rw [hrf i hi d, habf i (by omega) d, hpcf i (by omega) d]
                exact hsdf i (by omega) d

theorem unroll_exp_reps_st_frame : ∀ (rs : List Nat) (h : List Config),
    (∀ i, i < h.length → ∀ d, ((unroll_exp_reps_st h rs).1).getD i d = h.getD i d) ∧
    h.length ≤ ((unroll_exp_reps_st h rs).1).length := by
  intro rs
  induction rs with
  | nil =>
    intro h
    exact ⟨fun i _ d => rfl, Nat.le_refl _⟩
  | cons r rest ih =>
    intro h
    simp only [unroll_exp_reps_st]
    split
    · rcases ih h with ⟨huf, hul⟩
      split
      all_goals exact ⟨huf, hul⟩
    · split
      · exact ⟨fun i _ d => rfl, Nat.le_refl _⟩
      · split
        · exact ⟨fun i _ d => rfl, Nat.le_refl _⟩
        · rename_i recs hrecs
          rcases ih (allocValues h recs).1 with ⟨huf, hul⟩
          have hav : (allocValues h recs).1 = h ++ recs := allocValues_heap recs h
          have havl : h.length ≤ (allocValues h recs).1.length := by
            rw [hav]
            simp
          split
          all_goals
            refine ⟨fun i hi d => ?_, le_trans havl hul⟩
            rw [huf i (by omega) d, hav]
            exact getD_append_left h recs i hi d

theorem expand_experiments_st_frame (h : List Config) (rs : List Nat) :
    (∀ i, i < h.length → ∀ d, ((expand_experiments_st h rs).1).getD i d = h.getD i d) ∧
    h.length ≤ ((expand_experiments_st h rs).1).length := by
  have hdc : (deepcopyRefs h rs).1 = h ++ rs.map (fun r => h.getD r emptyConfig) :=
    deepcopyRefs_heap h rs
  have hdcl : h.length ≤ (deepcopyRefs h rs).1.length := by
    rw [hdc]
    simp
  have hdcr : ∀ r ∈ (deepcopyRefs h rs).2, h.length ≤ r :=
    fun r hr => deepcopyRefs_refs_ge h rs r hr
  rcases expand_loop_st_frame
      (worklistMeasure ((deepcopyRefs h rs).2.map
        (fun r => (deepcopyRefs h rs).1.getD r emptyConfig)) + 1)
      (deepcopyRefs h rs).1 (deepcopyRefs h rs).2 h.length hdcl hdcr with ⟨hef, hel⟩
  simp only [expand_experiments_st]
  split
  · refine ⟨fun i hi d => ?_, le_trans hdcl hel⟩
    rw [hef i hi d, hdc]
    exact getD_append_left h _ i hi d
  · rename_i rw1 hrw
    rcases normalize_st_frame
        (expand_loop_st
          (worklistMeasure ((deepcopyRefs h rs).2.map
            (fun r => (deepcopyRefs h rs).1.getD r emptyConfig)) + 1)
          (deepcopyRefs h rs).1 (deepcopyRefs h rs).2).1 rw1.1 with ⟨hnf, hnl⟩
    refine ⟨fun i hi d => ?_, le_trans hdcl (le_trans hel hnl)⟩
    rw [hnf i (by omega) d, hef i hi d, hdc]
    exact getD_append_left h _ i hi d

/-- C10: `unfold_exps` and its phases never mutate the caller's templates.
In the heap model, `expand_experiments` deep-copies the whole input list
before setting any bookkeeping field, the work-list loop writes only to
cells it allocated, and `unroll_exp_reps` deep-copies each record before
writing the repetition index and log path — so the full pipeline leaves
every pre-existing heap cell (in particular every template the caller
passed in) byte-for-byte unmodified. -/
theorem unfold_exps_no_mutation (h : List Config) (rs : List Nat) (i : Nat)
    (hi : i < h.length) :
    ∀ d, ((unfold_exps_st h rs).1).getD i d = h.getD i d := by
  rcases expand_experiments_st_frame h rs with ⟨heef, heel⟩
  intro d
  simp only [unfold_exps_st]
  split
  · exact heef i hi d
  · rename_i pw hpw
    rcases unroll_exp_reps_st_frame pw.1 (expand_experiments_st h rs).1 with ⟨huf, hul⟩
    split
    all_goals
      rw [huf i (by omega) d]
      exact heef i hi d

theorem unfold_exps_no_mutation_witness :
    0 < ([{ name := some "e", path := some "/o", repetitions := some 1 }] : List Config).length ∧
    ∀ d, ((unfold_exps_st
        [{ name := some "e", path := some "/o", repetitions := some 1 }] [0]).1).getD 0 d
      = ([{ name := some "e", path := some "/o", repetitions := some 1 }] :
          List Config).getD 0 d :=
  ⟨by decide,
   unfold_exps_no_mutation
     [{ name := some "e", path := some "/o", repetitions := some 1 }] [0] 0 (by decide)⟩
